import Mathlib

/-!
Verification development for the gossahash bisection-search tool.

The Go sources are shallowly embedded: strings are `List Char`, 64-bit
unsigned arithmetic is `Nat` reduced modulo `2 ^ 64` at every operation
that can overflow, external effects (running the test command, printing,
log files) are abstracted into explicit oracle functions and returned
event lists, and Go runtime panics (out-of-range slice or index,
`panic(...)` calls) are surfaced as `Except`/failure constructors.
-/

namespace Gossahash

/-- The modulus of Go `uint64` arithmetic. -/
def M64 : Nat := 2 ^ 64

/-- Result of `a - b` in Go `uint64` arithmetic (wrap-around), for
arguments already reduced below `M64`. -/
def sub64 (a b : Nat) : Nat := (a + (M64 - b % M64)) % M64

/-!
## The probe hash (`hashOf`, src/fail.go)

`hashOf(pkgAndName, param)` starts from the 20 SHA-1 bytes of the site
name.  SHA-1 itself is an external collaborator (out of scope per the
spec), so the embedding takes the byte vector `b : Fin 20 → Nat`
directly; the bytes of a real digest satisfy `b i < 256`.
-/

/-- `hashOf` from src/fail.go (lines 634-656 of the current revision):
assemble bytes 0..7 little-endian by addition of shifted bytes, and for
nonzero `param` mix in a scramble built from bytes 9..16. -/
def hashOf (b : Fin 20 → Nat) (param : Nat) : Nat :=
  let hash := ((b 7) <<< 56 + (b 6) <<< 48 + (b 5) <<< 40 + (b 4) <<< 32 +
               (b 3) <<< 24 + (b 2) <<< 16 + (b 1) <<< 8 + (b 0)) % M64
  let param1 :=
    if param ≠ 0 then
      let p0 := (param + (b 9) + (b 10) <<< 8 + (b 11) <<< 16 + (b 12) <<< 24) % M64
      let p1 := (param + (b 13) + (b 14) <<< 8 + (b 15) <<< 16 + (b 16) <<< 24) % M64
      let pm := (param + p0 * p1) % M64
      pm ^^^ ((pm >>> 17) ^^^ ((pm <<< 47) % M64))
    else param
  hash ^^^ param1

/-- The reference formula of spec §6, written from the spec's words:
`H` is bytes 0..7 assembled little-endian with bitwise or; when
`param = 0` the hash is `H`, otherwise the scramble of bytes 9..16 is
mixed in, all arithmetic modulo `2 ^ 64`. -/
def hashOfSpecFormula (b : Fin 20 → Nat) (param : Nat) : Nat :=
  let H := (b 0) ||| ((b 1) <<< 8) ||| ((b 2) <<< 16) ||| ((b 3) <<< 24) |||
           ((b 4) <<< 32) ||| ((b 5) <<< 40) ||| ((b 6) <<< 48) ||| ((b 7) <<< 56)
  if param = 0 then H
  else
    let p0 := (param + (b 9) + (b 10) <<< 8 + (b 11) <<< 16 + (b 12) <<< 24) % M64
    let p1 := (param + (b 13) + (b 14) <<< 8 + (b 15) <<< 16 + (b 16) <<< 24) % M64
    let pm := (param + p0 * p1) % M64
    H ^^^ (pm ^^^ ((pm >>> 17) ^^^ ((pm <<< 47) % M64)))

/-!
## String utilities mirroring the Go standard library calls used by the
trigger parser (`strings.TrimSpace`, `strings.Index`,
`strings.LastIndex`, slicing, `bufio.Scanner` line splitting,
`strconv.ParseUint`).
-/

/-- Go strings are embedded as lists of characters. -/
abbrev Str := List Char

/-- Whitespace characters relevant to `strings.TrimSpace` on the
outputs at hand. -/
def isSpaceChar (c : Char) : Bool :=
  c == ' ' || c == '\t' || c == '\n' || c == '\r'

/-- `strings.TrimSpace`. -/
def trimSpace (s : Str) : Str :=
  ((s.dropWhile isSpaceChar).reverse.dropWhile isSpaceChar).reverse

/-- Whether `pat` is a prefix of `s` (by characters). -/
def isPrefAt : Str → Str → Bool
  | [], _ => true
  | _ :: _, [] => false
  | c :: p, d :: s => c == d && isPrefAt p s

/-- Helper for `indexOfSub`: first index at or after position `i`. -/
def indexOfSubAux (pat : Str) : Str → Nat → Option Nat
  | [], i => if isPrefAt pat [] then some i else none
  | s@(_ :: t), i => if isPrefAt pat s then some i else indexOfSubAux pat t (i + 1)

/-- `strings.Index s pat` (`none` for Go's `-1`). -/
def indexOfSub (s pat : Str) : Option Nat := indexOfSubAux pat s 0

/-- `strings.LastIndex s c` for a one-character pattern
(`none` for Go's `-1`). -/
def lastIndexOfC (s : Str) (c : Char) : Option Nat :=
  match s.reverse.findIdx? (fun d => d == c) with
  | none => none
  | some j => some (s.length - 1 - j)

/-- Go slice `s[i:j]`: `none` models the runtime panic on an invalid
range. -/
def sliceGo (s : Str) (i j : Nat) : Option Str :=
  if i ≤ j ∧ j ≤ s.length then some ((s.take j).drop i) else none

/-- Helper for `splitLines`, carrying the current line reversed. -/
def splitLinesAux : Str → Str → List Str
  | [], acc => if acc.isEmpty then [] else [acc.reverse]
  | c :: t, acc =>
    if c = '\n' then acc.reverse :: splitLinesAux t [] else splitLinesAux t (c :: acc)

/-- The lines produced by `bufio.Scanner` over the captured output (a
trailing carriage return is removed below by `trimSpace`, which the
source applies to every scanned line). -/
def splitLines (s : Str) : List Str := splitLinesAux s []

/-- Binary digit. -/
def isBinDigit (c : Char) : Bool := c == '0' || c == '1'

/-- Lowercase hexadecimal digit, class `[0-9a-f]`. -/
def isHexDigit (c : Char) : Bool :=
  (48 ≤ c.toNat && c.toNat ≤ 57) || (97 ≤ c.toNat && c.toNat ≤ 102)

/-- Full-string membership in the POSIX regular expression
`[01]+|0x[0-9a-f]+` (the source checks that the leftmost-longest match
of `hashmatch` equals the whole token, which for this pattern is
exactly language membership). -/
def isTokenMatch (h : Str) : Bool :=
  (!h.isEmpty && h.all isBinDigit) ||
  (match h with
   | '0' :: 'x' :: rest => !rest.isEmpty && rest.all isHexDigit
   | _ => false)

/-- Numeric value of a hexadecimal digit. -/
def hexDigitVal (c : Char) : Nat :=
  if c.toNat ≤ 57 then c.toNat - 48 else c.toNat - 87

/-- `strconv.ParseUint(s, 16, 64)` where any error leads to a panic in
the source, `none` here. -/
def parseHexGo (s : Str) : Option Nat :=
  if s.isEmpty || !s.all isHexDigit then none
  else
    let v := s.foldl (fun a c => a * 16 + hexDigitVal c) 0
    if v < M64 then some v else none

/-- The value of a binary numeral. -/
def binValue (s : Str) : Nat :=
  s.foldl (fun a c => a * 2 + (if c == '1' then 1 else 0)) 0

/-- `strconv.ParseUint(s, 2, 64)` as used with its error ignored: a
syntax error yields 0, a range error yields `2 ^ 64 - 1`. -/
def parseBinGo (s : Str) : Nat :=
  if s.isEmpty || !s.all isBinDigit then 0
  else if binValue s < M64 then binValue s else M64 - 1

/-!
## The trigger parser (`matchTrigger`, src/unnamed/part_000 lines
254-316) and the outcome classification of `trySuffix` (lines 346-390).
-/

/-- `mask := uint64(1)<<len(suffix) - 1` in Go `uint64` arithmetic. -/
def maskOfLen (n : Nat) : Nat := sub64 ((1 <<< n) % M64) 1

/-- Outcome constants (the `iota` block of the source). -/
def FAILED : Nat := 0

/-- Exit nonzero, exactly one distinct trigger. -/
def DONE : Nat := 1

/-- Exit nonzero, no triggers (flaky test). -/
def DONE0 : Nat := 2

/-- Exit zero. -/
def PASSED : Nat := 3

/-- Exit zero and no triggers. -/
def PASSED0 : Nat := 4

/-- State of `matchTrigger`'s loop: the distinct keys of the map `m`
in insertion order, and `lastTrigger`. -/
structure MTOut where
  keys : List Str
  last : Str
deriving DecidableEq, Repr

/-- Map insertion as far as the key set is concerned: the Go map `m`
gains a key only when it is not already present. -/
def addKey (keys : List Str) (k : Str) : List Str :=
  if k ∈ keys then keys else keys ++ [k]

/-- The value `end` takes after the two conditionals at the top of the
loop body. -/
def endOfLine (bisect : Bool) (s : Str) : Nat :=
  if bisect then
    match lastIndexOfC s ']' with
    | some j => j
    | none => s.length
  else s.length

/-- The `lastTrigger` update at the end of the loop body
(`s[0:pi]` in bisect mode, `s[len(triggerPrefix):space]` otherwise). -/
def lastUpd (bisect : Bool) (trigPfx : Str) (pi sp : Nat) (s : Str)
    (st : MTOut) : Except Unit MTOut :=
  if bisect then .ok { st with last := trimSpace (s.take pi) }
  else
    match sliceGo s trigPfx.length sp with
    | none => .error ()
    | some seg => .ok { st with last := trimSpace seg }

/-- One iteration of `matchTrigger`'s scanner loop on a single line.
`.error` models a Go runtime panic (bad slice bounds, or the explicit
`panic` on a hex parse failure); `.ok` returns the updated map keys and
`lastTrigger`. -/
def lineStep (bisect : Bool) (trigPfx : Str) (mask sval : Nat)
    (st : MTOut) (line : Str) : Except Unit MTOut :=
  let s := trimSpace line
  match indexOfSub s trigPfx with
  | none => .ok st
  | some pi =>
    let e := endOfLine bisect s
    match lastIndexOfC s ' ' with
    | none =>
      -- `space == -1`: count the whole line, `space = len(s)`.
      lastUpd bisect trigPfx pi s.length s { st with keys := addKey st.keys s }
    | some sp =>
      match sliceGo s sp e with
      | none => .error ()
      | some seg =>
        let h := trimSpace seg
        if isTokenMatch h then
          if bisect then
            if h.length < 2 then .error ()
            else
              match parseHexGo (h.drop 2) with
              | none => .error ()
              | some hv =>
                if hv &&& mask ≠ sval then .ok st
                else lastUpd bisect trigPfx pi sp s { st with keys := addKey st.keys h }
          else lastUpd bisect trigPfx pi sp s { st with keys := addKey st.keys h }
        else lastUpd bisect trigPfx pi sp s { st with keys := addKey st.keys s }

/-- The scanner loop over all lines. -/
def runLines (bisect : Bool) (trigPfx : Str) (mask sval : Nat) :
    List Str → MTOut → Except Unit MTOut
  | [], st => .ok st
  | l :: ls, st =>
    match lineStep bisect trigPfx mask sval st l with
    | .error e => .error e
    | .ok st' => runLines bisect trigPfx mask sval ls st'

/-- `matchTrigger` from src/unnamed/part_000 (lines 254-316): extract
deduplicated trigger keys and the last trigger site from the captured
output. -/
def matchTrigger (bisect : Bool) (evname : Str) (output suffix : Str) :
    Except Unit MTOut :=
  let mask := maskOfLen suffix.length
  let sval := parseBinGo suffix &&& mask
  let trigPfx : Str :=
    if bisect then ("[bisect-match ".toList) else evname ++ (" triggered".toList)
  runLines bisect trigPfx mask sval (splitLines output) ⟨[], []⟩

/-- The classification at the bottom of `trySuffix` (src/unnamed/
part_000 lines 369-389), as a function of whether the command exited
nonzero and of the distinct-trigger count. -/
def trySuffixClassify (exitErr : Bool) (count : Nat) : Nat :=
  if exitErr then
    if count ≤ 1 then (if count = 0 then DONE0 else DONE) else FAILED
  else
    if count = 0 then PASSED0 else PASSED

/-- `trySuffix`'s outcome: parse the captured output, then classify. -/
def trySuffixGo (bisect : Bool) (evname : Str) (exitErr : Bool)
    (output suffix : Str) : Except Unit Nat := do
  let mt ← matchTrigger bisect evname output suffix
  pure (trySuffixClassify exitErr mt.keys.length)

/-!
## The probe rule set (`fail.go`, current revision): `hashAndMask`,
`NewHashDebug`, `DebugHashMatchParam`, and the env encoder
`newStyleEnvString` with the value extraction used by `test()`.
-/

/-- A rule entry: a hash `h` matches if `(h ^ hash) & mask == 0`. -/
structure hashAndMask where
  hash : Nat
  mask : Nat
  name : Str
deriving DecidableEq, Repr

/-- The probe's rule set (`matches` is a reserved word in Lean, so
that field is `matchRules`). -/
structure HashDebug where
  name : Str
  matchRules : List hashAndMask
  excludes : List hashAndMask
  yes : Bool
  no : Bool
deriving DecidableEq, Repr

/-- `toHashAndMask` (src/fail.go lines 552-565): keep the trailing 64
characters, mask `(1<<l)-1`, parse as binary; a parse error panics
(`.error` here). -/
def toHashAndMask (s varname : Str) : Except Unit hashAndMask :=
  let s1 := if 64 < s.length then s.drop (s.length - 64) else s
  if s1.isEmpty || !s1.all isBinDigit then .error ()
  else .ok ⟨binValue s1, 2 ^ s1.length - 1, varname⟩

/-- The separator characters of `NewHashDebug`'s tokenizer. -/
def isSepChar (c : Char) : Prop :=
  c = '/' ∨ c = '+' ∨ c = ',' ∨ c = ' ' ∨ c = '\t' ∨ c = '-' ∨ c = 'v'

instance : DecidablePred isSepChar := fun c => by
  unfold isSepChar
  infer_instance

/-- The tokenizer of `NewHashDebug` (src/fail.go lines 585-606): split
on `/ + , space tab - v`; a `-` separator starts the next token with
`-`. -/
def tokGo : Str → Str → List Str
  | [], sc => if sc.isEmpty then [] else [sc]
  | c :: cs, sc =>
    if isSepChar c then
      (if sc.isEmpty then [] else [sc]) ++ tokGo cs (if c = '-' then ['-'] else [])
    else tokGo cs (sc ++ [c])

/-- The (hash, mask) pair a binary token of width ≤ 64 denotes. -/
def ruleOf (t : Str) : Nat × Nat := (binValue t, 2 ^ t.length - 1)

/-- A well-formed binary suffix: nonempty, over `{0,1}`, at most 64
bits (spec §3). -/
def wf01 (t : Str) : Prop :=
  t ≠ [] ∧ t.all isBinDigit = true ∧ t.length ≤ 64

instance : DecidablePred wf01 := fun t => by
  unfold wf01
  infer_instance

/-- The rule-building loop of `NewHashDebug` (src/fail.go lines
608-630) over the token list; `ss` is the full token list (inspected by
the empty-token branch), `i` counts inclusion rules, and exclusions are
tagged `HASH_EXCLUDE<i>`. -/
def ruleLoopGo (ev : Str) (ss : List Str) :
    List Str → Nat → List hashAndMask → List hashAndMask →
    Except Unit (List hashAndMask × List hashAndMask)
  | [], _, ms, xs => .ok (ms, xs)
  | t :: rest, i, ms, xs =>
    if t.isEmpty then
      if i ≠ 0 ∨ (1 < ss.length ∧ ss.get? 1 ≠ some []) ∨ 2 < ss.length then .error ()
      else
        match toHashAndMask (['0']) (ev ++ ['0']),
              toHashAndMask (['1']) (ev ++ ['1']) with
        | .ok m0, .ok m1 => .ok (ms ++ [m0, m1], xs)
        | _, _ => .error ()
    else if t.headD ' ' = '-' then
      match toHashAndMask t.tail (("HASH_EXCLUDE".toList) ++ Nat.toDigits 10 i) with
      | .error e => .error e
      | .ok x => ruleLoopGo ev ss rest i ms (xs ++ [x])
    else
      match toHashAndMask t (if i = 0 then ev else ev ++ Nat.toDigits 10 (i - 1)) with
      | .error e => .error e
      | .ok m => ruleLoopGo ev ss rest (i + 1) (ms ++ [m]) xs

/-- `NewHashDebug` (src/fail.go lines 570-632) on the value `s` of the
environment variable `ev`; `.ok none` is the `nil` result for an empty
value. -/
def NewHashDebug (ev s : Str) : Except Unit (Option HashDebug) :=
  match s with
  | [] => .ok none
  | c :: _ =>
    if c = 'y' ∨ c = 'Y' then .ok (some ⟨ev, [], [], true, false⟩)
    else if c = 'n' ∨ c = 'N' then .ok (some ⟨ev, [], [], false, true⟩)
    else
      match ruleLoopGo ev (tokGo s []) (tokGo s []) 0 [] [] with
      | .error e => .error e
      | .ok (ms, xs) => .ok (some ⟨ev, ms, xs, false, false⟩)

/-- The env encoder `newStyleEnvString` (src/unnamed/part_000 lines
127-139): `<envEnvPfx><evString>=<hashPfx>[-x₁/…]suffix[/h₁…]` with
separator `/`. -/
def newStyleEnvString (envEnvPfx evString hashPfx : Str)
    (excludes : List Str) (withExcludes : Bool) (suffix : Str)
    (hashes : List Str) : Str :=
  envEnvPfx ++ evString ++ ('=' :: hashPfx) ++
    (if withExcludes then (excludes.map (fun x => '-' :: (x ++ ['/']))).flatten else []) ++
    suffix ++ (hashes.map (fun h => '/' :: h)).flatten

/-- How `test()` recovers the value: everything after the last `=` of
the assignment string (`gcd[li+1:]`, `li = strings.LastIndex(gcd,
"=")`). -/
def afterLastEq (s : Str) : Str :=
  (s.reverse.takeWhile (fun c => c != '=')).reverse

/-- One emitted trigger line of `logDebugHashMatch`, as structured
data: the variable name, the hash, and the param (the exact printf
formatting is I/O outside the decision logic). -/
structure LogEvent where
  varname : Str
  hash : Nat
  param : Nat
deriving DecidableEq, Repr

/-- `DebugHashMatchParam` (src/fail.go lines 672-701, current
revision): nil receiver means yes; `no` wins; then exclusions are
checked on the computed hash; then the always-yes / no-inclusion-rules
case logs and matches; otherwise the first matching inclusion rule
logs and matches.  The site enters through its SHA-1 bytes, which is
what `hashOf` consumes. -/
def DebugHashMatchParam (d : Option HashDebug) (siteBytes : Fin 20 → Nat)
    (param : Nat) : Bool × List LogEvent :=
  match d with
  | none => (true, [])
  | some d =>
    if d.no then (false, [])
    else
      let hash := hashOf siteBytes param
      if d.excludes.any (fun m => (m.hash ^^^ hash) &&& m.mask == 0) then
        (false, [])
      else if d.matchRules.length = 0 ∨ d.yes then (true, [⟨d.name, hash, param⟩])
      else
        match d.matchRules.find? (fun m => (m.hash ^^^ hash) &&& m.mask == 0) with
        | some m => (true, [⟨m.name, hash, param⟩])
        | none => (false, [])

/-!
## The search engine (`search`, src/unnamed/part_000 lines 715-806),
the filter pass (`filter`, lines 603-659) and the driver loop (`main`,
lines 558-591).

A trial (`trySuffix`) runs the external test command and classifies the
result; at this level it is abstracted into an oracle
`trial : Nat → Str → List Str → List Str → Nat` giving the outcome of
the k-th trial as a function of the suffix, the hash list, and the
exclusion list encoded into the environment (empty when
`withoutExcludes` is set, as during the filter pass).  The random
number generator enters as the streams `coin` (the draws of
`0 == 8192 & rand.Int()`) and `intn` (the draws of `rand.Intn`, taken
modulo the requested bound).  `lastTrigger`/`lastOutput` are byproducts
of the trials and play no role in the branching, so they stay inside
the oracle.
-/

/-- `hashLimit`, the maximum length of a hash string
(src/unnamed/part_000 line 34). -/
def hashLimit : Nat := 30

/-- The searchState fields that drive the control flow. -/
structure SState where
  suffix : Str
  hashes : List Str
  nsi : Nat
deriving DecidableEq, Repr

/-- Result of a full `search` run. -/
inductive SRes where
  | done (b : Bool)
  | fuelOut
  | panicked
deriving DecidableEq, Repr

/-- Output of `search`: result, final state, the trace of trials as
(confirmed_suffix, tried suffix) pairs, and the oracle cursors. -/
structure SearchOut where
  res : SRes
  st : SState
  trace : List (Str × Str)
  tIdx : Nat
  cIdx : Nat
  iIdx : Nat
deriving DecidableEq, Repr

/-- Action of one `search` loop iteration. -/
inductive SAct where
  | ret (b : Bool) (st : SState)
  | next (st : SState) (confirmed : Str) (restart : Str)
  | panicked
deriving DecidableEq, Repr

/-- The condition of the a/b swap at the top of the loop:
`restart_suffix == "" && 0 == 8192&rand.Int() || restart_suffix ==
"1"` (the coin is drawn only when the left operand is evaluated). -/
def headCond (coin : Nat → Bool) (restart : Str) (cIdx : Nat) : Prop :=
  (restart = [] ∧ coin cIdx = true) ∨ restart = ['1']

instance (coin : Nat → Bool) (restart : Str) (cIdx : Nat) :
    Decidable (headCond coin restart cIdx) := by
  unfold headCond
  infer_instance

/-- The bit tried first (`a`). -/
def armA (coin : Nat → Bool) (restart : Str) (cIdx : Nat) : Str :=
  if headCond coin restart cIdx then ['1'] else ['0']

/-- The bit tried second (`b`). -/
def armB (coin : Nat → Bool) (restart : Str) (cIdx : Nat) : Str :=
  if headCond coin restart cIdx then ['0'] else ['1']

/-- `restart_suffix` after the head of the loop (cleared exactly when
the swap fired). -/
def restartAfter (coin : Nat → Bool) (restart : Str) (cIdx : Nat) : Str :=
  if headCond coin restart cIdx then [] else restart

/-- The coin cursor after the head of the loop (one draw consumed iff
`restart_suffix` was empty). -/
def cIdxAfter (restart : Str) (cIdx : Nat) : Nat :=
  if restart = [] then cIdx + 1 else cIdx

/-- One iteration of the `search` loop body (the loop guard
`len(confirmed_suffix) < hashLimit` is checked by `searchGo`).
Returns the action, the trials of this iteration as
(confirmed, tried) pairs, and the updated oracle cursors. -/
def searchStep (trial : Nat → Str → List Str → List Str → Nat)
    (coin : Nat → Bool) (intn : Nat → Nat) (exs : List Str)
    (st : SState) (confirmed restart : Str) (tIdx cIdx iIdx : Nat) :
    SAct × List (Str × Str) × Nat × Nat × Nat :=
  let a := armA coin restart cIdx
  let b := armB coin restart cIdx
  let restart1 := restartAfter coin restart cIdx
  let cIdx1 := cIdxAfter restart cIdx
  let tried1 := a ++ confirmed
  let st1 : SState := { st with suffix := tried1 }
  let r1 := trial tIdx tried1 st1.hashes exs
  let tr1 := [(confirmed, tried1)]
  if r1 = FAILED then (.next st1 tried1 restart1, tr1, tIdx + 1, cIdx1, iIdx)
  else if r1 = DONE then
    if st1.nsi = st1.hashes.length then (.ret true st1, tr1, tIdx + 1, cIdx1, iIdx)
    else
      match st1.hashes.get? st1.nsi with
      | none => (.panicked, tr1, tIdx + 1, cIdx1, iIdx)
      | some h =>
        (.next { st1 with hashes := st1.hashes.set st1.nsi tried1,
                          nsi := st1.nsi + 1 } h restart1,
         tr1, tIdx + 1, cIdx1, iIdx)
  else
    let tried2 := b ++ confirmed
    let st2 : SState := { st1 with suffix := tried2 }
    let r2 := trial (tIdx + 1) tried2 st2.hashes exs
    let tr2 := [(confirmed, tried1), (confirmed, tried2)]
    if r2 = FAILED then (.next st2 tried2 restart1, tr2, tIdx + 2, cIdx1, iIdx)
    else if r2 = DONE then
      if st2.nsi = st2.hashes.length then (.ret true st2, tr2, tIdx + 2, cIdx1, iIdx)
      else
        let n := st2.hashes.length - st2.nsi
        let j := st2.nsi + intn iIdx % n
        match st2.hashes.get? j, st2.hashes.get? st2.nsi with
        | some hj, some hn =>
          (.next { st2 with hashes := (st2.hashes.set j hn).set st2.nsi tried2,
                            nsi := st2.nsi + 1 } hj restart1,
           tr2, tIdx + 2, cIdx1, iIdx + 1)
        | _, _ => (.panicked, tr2, tIdx + 2, cIdx1, iIdx + 1)
    else if r2 = PASSED ∧ r1 = PASSED then
      let a2 := if coin cIdx1 then b else a
      let b2 := if coin cIdx1 then a else b
      (.next { st2 with hashes := st2.hashes ++ [b2 ++ confirmed] }
        (a2 ++ confirmed) restart1, tr2, tIdx + 2, cIdx1 + 1, iIdx)
    else if r2 = PASSED ∨ r2 = PASSED0 ∨ r2 = DONE0 then
      if st2.nsi = st2.hashes.length then (.ret false st2, tr2, tIdx + 2, cIdx1, iIdx)
      else
        match st2.hashes.getLast? with
        | none => (.panicked, tr2, tIdx + 2, cIdx1, iIdx)
        | some hl =>
          (.next { st2 with hashes := st2.hashes.dropLast } hl restart1,
           tr2, tIdx + 2, cIdx1, iIdx)
    else (.next st2 confirmed restart1, tr2, tIdx + 2, cIdx1, iIdx)

/-- The `search` loop (fuel-indexed; the Go loop has no a-priori
bound). -/
def searchGo (trial : Nat → Str → List Str → List Str → Nat)
    (coin : Nat → Bool) (intn : Nat → Nat) (exs : List Str) :
    Nat → SState → Str → Str → Nat → Nat → Nat → SearchOut
  | fuel, st, confirmed, restart, tIdx, cIdx, iIdx =>
    if hashLimit ≤ confirmed.length then ⟨.done false, st, [], tIdx, cIdx, iIdx⟩
    else
      match fuel with
      | 0 => ⟨.fuelOut, st, [], tIdx, cIdx, iIdx⟩
      | fuel' + 1 =>
        match searchStep trial coin intn exs st confirmed restart tIdx cIdx iIdx with
        | (.ret b st', tr, t', c', i') => ⟨.done b, st', tr, t', c', i'⟩
        | (.panicked, tr, t', c', i') => ⟨.panicked, st, tr, t', c', i'⟩
        | (.next st' conf' rst', tr, t', c', i') =>
          let out := searchGo trial coin intn exs fuel' st' conf' rst' t' c' i'
          ⟨out.res, out.st, tr ++ out.trace, out.tIdx, out.cIdx, out.iIdx⟩

/-- Result of the filter loop: panicked (Go index out of range) or the
state, the final `temporarily_removed`, and the trial cursor. -/
inductive FLoopRes where
  | panicked
  | ok (st : SState) (temp : Str) (tIdx : Nat)
deriving DecidableEq, Repr

/-- Result of the filter pass. -/
inductive FOut where
  | panicked
  | ok (st : SState) (tIdx : Nat)
deriving DecidableEq, Repr

/-- The loop of `filter` (src/unnamed/part_000 lines 620-649).  The
counter `k` encodes the Go index `i = k - 2`, so the loop runs while
`i >= -1`, i.e. `k ≥ 1`, and the first call uses `k = len(hashes) + 2`.
In the `DONE0` branch with exactly one remaining hash the source
evaluates `ss.hashes[len(ss.hashes)-2]`, an index of `-1`, which
panics at runtime — modelled as `.panicked`. -/
def filterLoop (trial : Nat → Str → List Str → List Str → Nat)
    (exs : List Str) : Nat → SState → Str → Nat → FLoopRes
  | 0, st, temp, tIdx => .ok st temp tIdx
  | k + 1, st, temp, tIdx =>
    if st.hashes.length = 0 then .ok st temp tIdx
    else
      let st1 :=
        if k = 0 then { st with suffix := temp }
        else if k - 1 < st.hashes.length then
          { st with hashes := st.hashes.set (k - 1) temp }
        else st
      let temp1 :=
        if k = 0 then st.suffix
        else if k - 1 < st.hashes.length then st.hashes.getD (k - 1) []
        else temp
      let r := trial tIdx st1.suffix st1.hashes exs
      if r = DONE0 then
        if 1 < st1.hashes.length then
          filterLoop trial exs k
            { st1 with suffix := st1.hashes.getD (st1.hashes.length - 1) [],
                       hashes := [] } [] (tIdx + 1)
        else .panicked
      else if r = DONE ∨ r = FAILED then
        match st1.hashes.getLast? with
        | none => .panicked
        | some hl =>
          filterLoop trial exs k { st1 with hashes := st1.hashes.dropLast }
            hl (tIdx + 1)
      else filterLoop trial exs k st1 temp1 (tIdx + 1)

/-- The filter pass (src/unnamed/part_000 lines 603-659): pop the last
hash, run the loop, push a nonempty leftover back, then one confirming
trial. -/
def filterGo (trial : Nat → Str → List Str → List Str → Nat)
    (exs : List Str) (st : SState) (tIdx : Nat) : FOut :=
  if st.hashes.length = 0 then .ok st tIdx
  else
    match st.hashes.getLast? with
    | none => .panicked
    | some temp0 =>
      let st0 := { st with hashes := st.hashes.dropLast }
      match filterLoop trial exs (st0.hashes.length + 2) st0 temp0 tIdx with
      | .panicked => .panicked
      | .ok st1 temp1 t1 =>
        let st2 := if temp1.isEmpty then st1
                   else { st1 with hashes := st1.hashes ++ [temp1] }
        .ok st2 (t1 + 1)

/-- A message the driver prints that the claims care about. -/
inductive DMsg where
  | flaky
  | noMoreFailures
deriving DecidableEq, Repr

/-- What the driver run produces: the messages and the process exit
code.  The modelled region of `main` contains no `os.Exit` call, so a
completed run exits with the code of a normal `main` return, 0. -/
structure DriverOut where
  msgs : List DMsg
  exitCode : Nat
deriving DecidableEq, Repr

/-- The driver loop of `main` (src/unnamed/part_000 lines 558-591):
search, on failure print FLAKY TEST OR BAD SEARCH and stop; on success
filter, decrement `multiple`, accumulate exclusions, and re-check that
a failure remains.  `none` models a run the fuel cannot finish or a
runtime panic. -/
def driverGo (trial : Nat → Str → List Str → List Str → Nat)
    (coin : Nat → Bool) (intn : Nat → Nat) (sFuel : Nat)
    (initialSuffix restartSuffix : Str) (batchExclude : Bool) :
    Nat → Int → List Str → Nat → Nat → Nat → Option DriverOut
  | 0, _, _, _, _, _ => none
  | n + 1, multiple, excludes, tIdx, cIdx, iIdx =>
    let sOut := searchGo trial coin intn excludes sFuel ⟨[], [], 0⟩
      initialSuffix restartSuffix tIdx cIdx iIdx
    match sOut.res with
    | .fuelOut => none
    | .panicked => none
    | .done false => some ⟨[.flaky], 0⟩
    | .done true =>
      match filterGo trial [] sOut.st sOut.tIdx with
      | .panicked => none
      | .ok stF tF =>
        let multiple1 := multiple - 1
        if multiple1 = 0 then some ⟨[], 0⟩
        else
          let excludes1 := excludes ++ [stF.suffix] ++
            (if batchExclude then stF.hashes else [])
          let r := trial tF initialSuffix [] excludes1
          if r = PASSED ∨ r = PASSED0 then some ⟨[.noMoreFailures], 0⟩
          else driverGo trial coin intn sFuel initialSuffix restartSuffix
            batchExclude n multiple1 excludes1 (tF + 1) sOut.cIdx sOut.iIdx

/-- The deterministic rule-set oracle of the C9 counterexample: the
outcome of a trial is a function of the (suffix, hashes) rule set
alone. -/
def trial9 (s : Str) (hs : List Str) : Nat :=
  if s = ("000".toList) ∧ hs = [("1".toList), ("10".toList)] then DONE
  else if s = ("01".toList) ∧ hs = [("000".toList), ("10".toList)] then DONE
  else if s = ("010".toList) ∧ hs = [("000".toList), ("01".toList)] then DONE
  else if s = ("000".toList) ∧ hs = [("010".toList)] then DONE
  else PASSED

/-- `trial9` lifted to the oracle signature (ignores the call index and
the exclusions, which are empty in the runs considered). -/
def trialOracle9 : Nat → Str → List Str → List Str → Nat :=
  fun _ s hs _ => trial9 s hs

/-- Oracle for the C10 failing input: the test command fails without
triggering anything (`DONE0`) on every trial. -/
def trialD0 : Nat → Str → List Str → List Str → Nat := fun _ _ _ _ => DONE0

/-- Oracle for the C7 counterexample: first trial passes, every later
one passes with no triggers, which makes the very first search flaky.
-/
def trialFlaky : Nat → Str → List Str → List Str → Nat :=
  fun k _ _ _ => if k = 0 then PASSED else PASSED0

/-- Oracle for the C10 failing run: behaves like `trialOracle9` during
the seven search trials, then reports `DONE0` (test fails, nothing
triggered) from the first filter trial on. -/
def trialC10 : Nat → Str → List Str → List Str → Nat :=
  fun k s hs exs => if k < 7 then trialOracle9 k s hs exs else DONE0

/-- Concrete byte vector for the C2 witness. -/
def witnessBytes : Fin 20 → Nat := fun i => 10 * i.val + 3


/-! ## Theorems -/

/-- Disjoint bit ranges: or-ing a low part below `2 ^ k` with a value
shifted left by `k` is the same as adding them. -/
theorem lor_shift_eq_add (a c k : Nat) (ha : a < 2 ^ k) :
    a ||| (c <<< k) = a + c <<< k := by
  rw [Nat.shiftLeft_eq, Nat.mul_comm c (2 ^ k), Nat.lor_comm, Nat.add_comm]
  exact (Nat.mul_add_lt_is_or ha c).symm

/-- Variant of `lor_shift_eq_add` with the power of two given as a
numeral, convenient for rewriting. -/
theorem lor_shift_eq_add_num (a c k m : Nat) (hm : (2 : Nat) ^ k = m)
    (ha : a < m) : a ||| (c <<< k) = a + c * m := by
  subst hm
  rw [← Nat.shiftLeft_eq]
  exact lor_shift_eq_add a c k ha

/-- The little-endian byte assembly of `hashOf` (sum of shifted bytes,
reduced mod `2 ^ 64`) equals the or-chain of the spec formula. -/
theorem assemble_eq (b : Fin 20 → Nat) (hb : ∀ i, b i < 256) :
    ((b 7) <<< 56 + (b 6) <<< 48 + (b 5) <<< 40 + (b 4) <<< 32 +
     (b 3) <<< 24 + (b 2) <<< 16 + (b 1) <<< 8 + (b 0)) % M64 =
    (b 0) ||| ((b 1) <<< 8) ||| ((b 2) <<< 16) ||| ((b 3) <<< 24) |||
    ((b 4) <<< 32) ||| ((b 5) <<< 40) ||| ((b 6) <<< 48) ||| ((b 7) <<< 56) := by
  have h0 := hb 0; have h1 := hb 1; have h2 := hb 2; have h3 := hb 3
  have h4 := hb 4; have h5 := hb 5; have h6 := hb 6; have h7 := hb 7
  rw [lor_shift_eq_add_num (b 0) (b 1) 8 256 (by norm_num) (by omega)]
  rw [lor_shift_eq_add_num _ (b 2) 16 65536 (by norm_num) (by omega)]
  rw [lor_shift_eq_add_num _ (b 3) 24 16777216 (by norm_num) (by omega)]
  rw [lor_shift_eq_add_num _ (b 4) 32 4294967296 (by norm_num) (by omega)]
  rw [lor_shift_eq_add_num _ (b 5) 40 1099511627776 (by norm_num) (by omega)]
  rw [lor_shift_eq_add_num _ (b 6) 48 281474976710656 (by norm_num) (by omega)]
  rw [lor_shift_eq_add_num _ (b 7) 56 72057594037927936 (by norm_num) (by omega)]
  simp only [Nat.shiftLeft_eq]
  norm_num [M64]
  omega

/-- Claim C2: for every site (given by its 20 SHA-1 bytes) and every
param, `hashOf` equals the reference formula of spec §6: `H` is SHA-1
bytes 0..7 assembled little-endian; when `param = 0` the result is `H`;
otherwise `param` is scrambled with bytes 9..16 exactly as stated and
the result is `H ^ param'`, all arithmetic modulo `2 ^ 64`. -/
theorem hashOf_matches_spec (b : Fin 20 → Nat) (param : Nat)
    (hb : ∀ i, b i < 256) : hashOf b param = hashOfSpecFormula b param := by
  unfold hashOf hashOfSpecFormula
  by_cases hp : param = 0
  · subst hp
    simp [assemble_eq b hb]
  · simp only [ne_eq, hp, not_false_eq_true, if_true, if_neg hp]
    rw [assemble_eq b hb]
    simp

/-- Witness for C2 at a concrete byte vector and param. -/
theorem hashOf_matches_spec_witness :
    (∀ i, witnessBytes i < 256) ∧
      hashOf witnessBytes 5 = hashOfSpecFormula witnessBytes 5 :=
  ⟨by decide, hashOf_matches_spec witnessBytes 5 (by decide)⟩


/-! ### C1: outcome classification of a trial -/

theorem addKey_nodup (ks : List Str) (k : Str) (h : ks.Nodup) :
    (addKey ks k).Nodup := by
  unfold addKey
  split
  · exact h
  · next hmem =>
    rw [List.nodup_append]
    refine ⟨h, List.nodup_singleton k, ?_⟩
    intro a ha hak
    simp only [List.mem_singleton] at hak
    exact hmem (hak ▸ ha)

theorem lastUpd_keys (b : Bool) (p : Str) (pi sp : Nat) (s : Str)
    (st st' : MTOut) (h : lastUpd b p pi sp s st = .ok st') :
    st'.keys = st.keys := by
  unfold lastUpd at h
  split at h
  · cases h; rfl
  · split at h
    · cases h
    · cases h; rfl

theorem lineStep_keys (b : Bool) (p : Str) (m v : Nat) (st : MTOut)
    (l : Str) (st' : MTOut) (h : lineStep b p m v st l = .ok st') :
    st'.keys = st.keys ∨ ∃ k, st'.keys = addKey st.keys k := by
  simp only [lineStep] at h
  split at h
  · cases h; exact Or.inl rfl
  · split at h
    · exact Or.inr ⟨_, lastUpd_keys _ _ _ _ _ _ _ h⟩
    · split at h
      · cases h
      · split at h
        · split at h
          · split at h
            · cases h
            · split at h
              · cases h
              · split at h
                · cases h; exact Or.inl rfl
                · exact Or.inr ⟨_, lastUpd_keys _ _ _ _ _ _ _ h⟩
          · exact Or.inr ⟨_, lastUpd_keys _ _ _ _ _ _ _ h⟩
        · exact Or.inr ⟨_, lastUpd_keys _ _ _ _ _ _ _ h⟩

theorem runLines_nodup (b : Bool) (p : Str) (m v : Nat) :
    ∀ (ls : List Str) (st mt : MTOut), st.keys.Nodup →
      runLines b p m v ls st = .ok mt → mt.keys.Nodup := by
  intro ls
  induction ls with
  | nil =>
    intro st mt h hr
    unfold runLines at hr
    cases hr
    exact h
  | cons l t ih =>
    intro st mt h hr
    unfold runLines at hr
    split at hr
    · cases hr
    · next st' hstep =>
      refine ih st' mt ?_ hr
      rcases lineStep_keys b p m v st l st' hstep with h1 | ⟨k, h2⟩
      · rw [h1]; exact h
      · rw [h2]; exact addKey_nodup _ _ h

theorem matchTrigger_nodup (b : Bool) (evname output suffix : Str)
    (mt : MTOut) (h : matchTrigger b evname output suffix = .ok mt) :
    mt.keys.Nodup := by
  unfold matchTrigger at h
  exact runLines_nodup _ _ _ _ _ _ _ List.nodup_nil h

/-- Arithmetic characterization of `trySuffixClassify`. -/
theorem trySuffixClassify_spec (e : Bool) (n : Nat) :
    (trySuffixClassify e n = FAILED ↔ e = true ∧ 2 ≤ n) ∧
    (trySuffixClassify e n = DONE ↔ e = true ∧ n = 1) ∧
    (trySuffixClassify e n = DONE0 ↔ e = true ∧ n = 0) ∧
    (trySuffixClassify e n = PASSED ↔ e = false ∧ 1 ≤ n) ∧
    (trySuffixClassify e n = PASSED0 ↔ e = false ∧ n = 0) := by
  unfold trySuffixClassify FAILED DONE DONE0 PASSED PASSED0
  cases e <;> split_ifs <;> refine ⟨?_, ?_, ?_, ?_, ?_⟩ <;> simp_all <;> omega

/-- Claim C1: `trySuffix` classifies the pair (exit status, number of
distinct trigger lines) into exactly one of five tags: FAILED on
nonzero exit with at least 2 distinct triggers, DONE on nonzero exit
with exactly 1, DONE0 on nonzero exit with 0, PASSED on zero exit with
at least 1, PASSED0 on zero exit with 0; identical trigger lines are
counted once (the key list is duplicate-free). -/
theorem trySuffix_classification (bisect : Bool) (evname : Str)
    (exitErr : Bool) (output suffix : Str) (mt : MTOut)
    (hm : matchTrigger bisect evname output suffix = .ok mt) :
    (trySuffixGo bisect evname exitErr output suffix = .ok FAILED ↔
       exitErr = true ∧ 2 ≤ mt.keys.length) ∧
    (trySuffixGo bisect evname exitErr output suffix = .ok DONE ↔
       exitErr = true ∧ mt.keys.length = 1) ∧
    (trySuffixGo bisect evname exitErr output suffix = .ok DONE0 ↔
       exitErr = true ∧ mt.keys.length = 0) ∧
    (trySuffixGo bisect evname exitErr output suffix = .ok PASSED ↔
       exitErr = false ∧ 1 ≤ mt.keys.length) ∧
    (trySuffixGo bisect evname exitErr output suffix = .ok PASSED0 ↔
       exitErr = false ∧ mt.keys.length = 0) ∧
    mt.keys.Nodup := by
  have hmt : trySuffixGo bisect evname exitErr output suffix =
      .ok (trySuffixClassify exitErr mt.keys.length) := by
    unfold trySuffixGo
    rw [hm]
    rfl
  have hc := trySuffixClassify_spec exitErr mt.keys.length
  refine ⟨?_, ?_, ?_, ?_, ?_, matchTrigger_nodup _ _ _ _ _ hm⟩ <;>
      rw [hmt] <;> simp only [Except.ok.injEq]
  · exact hc.1
  · exact hc.2.1
  · exact hc.2.2.1
  · exact hc.2.2.2.1
  · exact hc.2.2.2.2

/-- Witness for C1: a failing run whose output repeats one trigger line
twice is classified DONE (the duplicate is counted once). -/
theorem trySuffix_classification_witness :
    matchTrigger false ("gossahash".toList)
        ("gossahash triggered foo 0101\ngossahash triggered foo 0101\n".toList)
        ("1".toList) = .ok ⟨[("0101".toList)], ("foo".toList)⟩ ∧
    trySuffixGo false ("gossahash".toList) true
        ("gossahash triggered foo 0101\ngossahash triggered foo 0101\n".toList)
        ("1".toList) = .ok DONE := by
  have hm : matchTrigger false ("gossahash".toList)
      ("gossahash triggered foo 0101\ngossahash triggered foo 0101\n".toList)
      ("1".toList) = .ok ⟨[("0101".toList)], ("foo".toList)⟩ := by rfl
  exact ⟨hm, ((trySuffix_classification false ("gossahash".toList) true
    ("gossahash triggered foo 0101\ngossahash triggered foo 0101\n".toList)
    ("1".toList) ⟨[("0101".toList)], ("foo".toList)⟩ hm).2.1).mpr ⟨rfl, rfl⟩⟩

/-! ### C3: the bisect-mode mask filter of the trigger parser -/

theorem binValue_foldl_lt (s : Str) : ∀ acc : Nat,
    List.foldl (fun a c => a * 2 + (if c == '1' then 1 else 0)) acc s <
      (acc + 1) * 2 ^ s.length := by
  induction s with
  | nil => intro acc; simp
  | cons c t ih =>
    intro acc
    simp only [List.foldl_cons, List.length_cons]
    have hd : (if c == '1' then 1 else 0) ≤ 1 := by split <;> omega
    have h2 : acc * 2 + (if c == '1' then 1 else 0) + 1 ≤ (acc + 1) * 2 := by omega
    calc List.foldl (fun a c => a * 2 + (if c == '1' then 1 else 0))
          (acc * 2 + (if c == '1' then 1 else 0)) t
        < (acc * 2 + (if c == '1' then 1 else 0) + 1) * 2 ^ t.length := ih _
      _ ≤ ((acc + 1) * 2) * 2 ^ t.length := Nat.mul_le_mul_right _ h2
      _ = (acc + 1) * 2 ^ (t.length + 1) := by ring

theorem binValue_lt (s : Str) : binValue s < 2 ^ s.length := by
  simpa [binValue] using binValue_foldl_lt s 0

theorem maskOfLen_eq (n : Nat) (h : n ≤ 64) : maskOfLen n = 2 ^ n - 1 := by
  unfold maskOfLen sub64 M64
  rw [Nat.shiftLeft_eq, one_mul]
  have e64 : (2 : Nat) ^ 64 = 18446744073709551616 := by norm_num
  rw [e64]
  by_cases h64 : n = 64
  · subst h64; norm_num
  · have hlt : (2 : Nat) ^ n < 18446744073709551616 := by
      calc (2 : Nat) ^ n < 2 ^ 64 := Nat.pow_lt_pow_right (by norm_num) (by omega)
        _ = 18446744073709551616 := e64
    have hpos : (1 : Nat) ≤ 2 ^ n := Nat.one_le_two_pow
    omega

/-- For a well-formed binary suffix the code's `suffixVal` (parse then
mask) is just the numeric value of the suffix read as binary. -/
theorem suffixVal_eq (s : Str) (hall : s.all isBinDigit = true)
    (hlen : s.length ≤ 64) :
    parseBinGo s &&& maskOfLen s.length = binValue s := by
  have hbv : binValue s < 2 ^ s.length := binValue_lt s
  have hM : binValue s < M64 := by
    apply lt_of_lt_of_le hbv
    unfold M64
    exact Nat.pow_le_pow_right (by norm_num) hlen
  have hmask : maskOfLen s.length = 2 ^ s.length - 1 := maskOfLen_eq _ hlen
  have hpb : parseBinGo s = binValue s := by
    unfold parseBinGo
    cases s with
    | nil => rfl
    | cons c t =>
      rw [if_neg (by simp [hall])]
      rw [if_pos hM]
  rw [hpb, hmask]
  exact Nat.and_pow_two_sub_one_of_lt_two_pow hbv

theorem splitLinesAux_nonl (l : Str) : ∀ acc : Str, '\n' ∉ l →
    (acc ≠ [] ∨ l ≠ []) → splitLinesAux l acc = [acc.reverse ++ l] := by
  induction l with
  | nil =>
    intro acc h hne
    have hacc : acc ≠ [] := by
      rcases hne with h' | h'
      · exact h'
      · exact absurd rfl h'
    cases acc with
    | nil => exact absurd rfl hacc
    | cons a as => simp [splitLinesAux]
  | cons c t ih =>
    intro acc h hne
    have hc : ¬ c = '\n' := by
      intro he
      exact h (by rw [he]; exact List.mem_cons_self _ _)
    unfold splitLinesAux
    rw [if_neg hc]
    rw [ih (c :: acc) (fun hm => h (List.mem_cons_of_mem _ hm)) (Or.inl (by simp))]
    simp

theorem splitLines_single (l : Str) (h : '\n' ∉ l) (hne : l ≠ []) :
    splitLines l = [l] := by
  unfold splitLines
  rw [splitLinesAux_nonl l [] h (Or.inr hne)]
  simp

/-- Claim C3: in bisect-syntax mode, a trigger line whose hex hash
parses to `hv` is counted exactly when
`hv AND ((1 << len(suffix)) - 1)` equals the numeric value of the
suffix read as binary; a non-matching trigger is discarded before the
distinct-trigger count (and before the `lastTrigger` update). -/
theorem matchTrigger_bisect_filter
    (evname line suffix : Str) (pi sp : Nat) (seg : Str) (hv : Nat)
    (hnl : '\n' ∉ line)
    (hsfx : suffix.all isBinDigit = true) (hslen : suffix.length ≤ 64)
    (hpi : indexOfSub (trimSpace line) ("[bisect-match ".toList) = some pi)
    (hsp : lastIndexOfC (trimSpace line) ' ' = some sp)
    (hseg : sliceGo (trimSpace line) sp (endOfLine true (trimSpace line)) = some seg)
    (htok : isTokenMatch (trimSpace seg) = true)
    (hlen2 : 2 ≤ (trimSpace seg).length)
    (hhv : parseHexGo ((trimSpace seg).drop 2) = some hv) :
    matchTrigger true evname line suffix =
      .ok (if hv &&& maskOfLen suffix.length = binValue suffix then
             ⟨[trimSpace seg], trimSpace ((trimSpace line).take pi)⟩
           else ⟨[], []⟩) := by
  have hline : line ≠ [] := by
    intro he
    rw [he] at hpi
    have hz : indexOfSub (trimSpace ([] : Str)) ("[bisect-match ".toList) = none := rfl
    rw [hz] at hpi
    exact Option.noConfusion hpi
  have hval : parseBinGo suffix &&& maskOfLen suffix.length = binValue suffix :=
    suffixVal_eq suffix hsfx hslen
  have hstep : lineStep true ("[bisect-match ".toList) (maskOfLen suffix.length)
      (binValue suffix) ⟨[], []⟩ line =
      .ok (if hv &&& maskOfLen suffix.length = binValue suffix then
             ⟨[trimSpace seg], trimSpace ((trimSpace line).take pi)⟩
           else ⟨[], []⟩) := by
    simp only [lineStep, hpi, hsp, hseg, htok]
    rw [if_neg (by omega : ¬ (trimSpace seg).length < 2)]
    rw [hhv]
    by_cases hcond : hv &&& maskOfLen suffix.length = binValue suffix
    · simp [lastUpd, addKey, hcond]
    · simp [hcond]
  simp only [matchTrigger]
  rw [splitLines_single line hnl hline]
  simp only [runLines, if_true]
  rw [hval, hstep]

/-- Witness for C3 at scenario S4: hash `0x800ddd09be2584e3` is counted
for suffix `11` and rejected for suffix `00`. -/
theorem matchTrigger_bisect_filter_witness :
    matchTrigger true []
        ("./a/a.go:11:6 [bisect-match 0x800ddd09be2584e3]".toList)
        ("11".toList) =
      .ok ⟨[("0x800ddd09be2584e3".toList)], ("./a/a.go:11:6".toList)⟩ ∧
    matchTrigger true []
        ("./a/a.go:11:6 [bisect-match 0x800ddd09be2584e3]".toList)
        ("00".toList) = .ok ⟨[], []⟩ := by
  constructor
  · exact (matchTrigger_bisect_filter []
      ("./a/a.go:11:6 [bisect-match 0x800ddd09be2584e3]".toList)
      ("11".toList) 14 27 (" 0x800ddd09be2584e3".toList) 0x800ddd09be2584e3
      (by decide) (by rfl) (by decide) (by rfl) (by rfl) (by rfl)
      (by rfl) (by decide) (by rfl)).trans (by rfl)
  · exact (matchTrigger_bisect_filter []
      ("./a/a.go:11:6 [bisect-match 0x800ddd09be2584e3]".toList)
      ("00".toList) 14 27 (" 0x800ddd09be2584e3".toList) 0x800ddd09be2584e3
      (by decide) (by rfl) (by decide) (by rfl) (by rfl) (by rfl)
      (by rfl) (by decide) (by rfl)).trans (by rfl)

/-! ### C4: exclusions are checked before always-yes / match-everything -/

/-- Claim C4: for every rule set and decision query, if some exclusion
rule matches the computed hash then `DebugHashMatchParam` returns
`false` and emits no trigger line — even when the rule set is
`AlwaysYes` or has no inclusion rules, since exclusions are checked
before those cases. -/
theorem DebugHashMatchParam_excluded (d : HashDebug) (b : Fin 20 → Nat)
    (param : Nat)
    (hx : ∃ m ∈ d.excludes, (m.hash ^^^ hashOf b param) &&& m.mask = 0) :
    DebugHashMatchParam (some d) b param = (false, []) := by
  have hany : d.excludes.any
      (fun m => (m.hash ^^^ hashOf b param) &&& m.mask == 0) = true := by
    rcases hx with ⟨m, hm, he⟩
    exact List.any_eq_true.mpr ⟨m, hm, by simpa using he⟩
  by_cases hno : d.no
  · simp [DebugHashMatchParam, hno]
  · simp [DebugHashMatchParam, hno, hany]

/-- Witness for C4: an `AlwaysYes` rule set with no inclusion rules and
a universal exclusion (mask 0, which matches every hash) still answers
`false` with no trigger. -/
theorem DebugHashMatchParam_excluded_witness :
    (∃ m ∈ ([⟨0, 0, ("HASH_EXCLUDE0".toList)⟩] : List hashAndMask),
        (m.hash ^^^ hashOf witnessBytes 7) &&& m.mask = 0) ∧
    DebugHashMatchParam
        (some ⟨("gossahash".toList), [],
               [⟨0, 0, ("HASH_EXCLUDE0".toList)⟩], true, false⟩)
        witnessBytes 7 = (false, []) :=
  ⟨⟨⟨0, 0, ("HASH_EXCLUDE0".toList)⟩, by simp, by simp⟩,
   DebugHashMatchParam_excluded
     ⟨("gossahash".toList), [], [⟨0, 0, ("HASH_EXCLUDE0".toList)⟩], true, false⟩
     witnessBytes 7
     ⟨⟨0, 0, ("HASH_EXCLUDE0".toList)⟩, by simp, by simp⟩⟩

/-! ### C8: round-trip of the env encoding -/

theorem takeWhile_append_stop {α : Type} (p : α → Bool) (l : List α)
    (x : α) (rest : List α) (hall : ∀ a ∈ l, p a = true) (hx : p x = false) :
    (l ++ x :: rest).takeWhile p = l := by
  induction l with
  | nil => simp [List.takeWhile_cons, hx]
  | cons a t ih =>
    have ha : p a = true := hall a (List.mem_cons_self _ _)
    simp only [List.cons_append, List.takeWhile_cons, ha, if_true]
    rw [ih (fun b hb => hall b (List.mem_cons_of_mem _ hb))]

theorem afterLastEq_append (h v : Str) (hv : '=' ∉ v) :
    afterLastEq (h ++ '=' :: v) = v := by
  unfold afterLastEq
  rw [List.reverse_append, List.reverse_cons, List.append_assoc]
  simp only [List.singleton_append]
  rw [takeWhile_append_stop _ v.reverse '=' h.reverse ?hall (by simp)]
  · simp
  · intro a ha
    have : a ∈ v := List.mem_reverse.mp ha
    simp only [bne_iff_ne, ne_eq, decide_eq_true_eq]
    intro he
    exact hv (he ▸ this)

theorem binDigit_not_sep (c : Char) (h : isBinDigit c = true) :
    ¬ isSepChar c := by
  have h01 : c = '0' ∨ c = '1' := by simpa [isBinDigit] using h
  rcases h01 with rfl | rfl <;> decide

theorem tokGo_append_nonsep (t : Str) (ht : ∀ c ∈ t, ¬ isSepChar c) :
    ∀ rest sc : Str, tokGo (t ++ rest) sc = tokGo rest (sc ++ t) := by
  induction t with
  | nil => intro rest sc; simp
  | cons c t' ih =>
    intro rest sc
    have hc : ¬ isSepChar c := ht c (List.mem_cons_self _ _)
    simp only [List.cons_append, tokGo, if_neg hc, List.append_eq]
    rw [ih (fun d hd => ht d (List.mem_cons_of_mem _ hd)) rest (sc ++ [c])]
    simp

theorem tokGo_slash (rest sc : Str) (hsc : sc ≠ []) :
    tokGo ('/' :: rest) sc = sc :: tokGo rest [] := by
  show (if sc.isEmpty then [] else [sc]) ++ tokGo rest [] = sc :: tokGo rest []
  cases sc with
  | nil => exact absurd rfl hsc
  | cons a as => rfl

theorem tokGo_dash_chunk (x rest : Str) (_hx : x ≠ [])
    (hxc : ∀ c ∈ x, ¬ isSepChar c) :
    tokGo ('-' :: (x ++ '/' :: rest)) [] = ('-' :: x) :: tokGo rest [] := by
  show tokGo (x ++ '/' :: rest) ['-'] = ('-' :: x) :: tokGo rest []
  rw [tokGo_append_nonsep x hxc ('/' :: rest) ['-']]
  rw [tokGo_slash rest (['-'] ++ x) (by simp)]
  simp

theorem tokGo_exclPart (xs : List Str) (rest : Str)
    (hxs : ∀ x ∈ xs, x ≠ [] ∧ ∀ c ∈ x, ¬ isSepChar c) :
    tokGo ((xs.map (fun x => '-' :: (x ++ ['/']))).flatten ++ rest) [] =
      xs.map (fun x => '-' :: x) ++ tokGo rest [] := by
  induction xs with
  | nil => simp
  | cons x xs' ih =>
    have hx := hxs x (List.mem_cons_self _ _)
    simp only [List.map_cons, List.flatten_cons, List.cons_append,
      List.append_assoc, List.singleton_append, List.nil_append]
    rw [tokGo_dash_chunk x _ hx.1 hx.2]
    rw [ih (fun y hy => hxs y (List.mem_cons_of_mem _ hy))]

theorem tokGo_hashesPart (hs : List Str)
    (hhs : ∀ h ∈ hs, h ≠ [] ∧ ∀ c ∈ h, ¬ isSepChar c) :
    ∀ sc : Str, sc ≠ [] →
      tokGo ((hs.map (fun h => '/' :: h)).flatten) sc = sc :: hs := by
  induction hs with
  | nil =>
    intro sc hsc
    cases sc with
    | nil => exact absurd rfl hsc
    | cons a as => simp [tokGo]
  | cons h t ih =>
    intro sc hsc
    have hh := hhs h (List.mem_cons_self _ _)
    simp only [List.map_cons, List.flatten_cons, List.cons_append]
    rw [tokGo_slash _ sc hsc]
    rw [tokGo_append_nonsep h hh.2 _ []]
    simp only [List.nil_append]
    rw [ih (fun y hy => hhs y (List.mem_cons_of_mem _ hy)) h hh.1]

theorem toHashAndMask_ok (t nm : Str) (h : wf01 t) :
    toHashAndMask t nm = .ok ⟨binValue t, 2 ^ t.length - 1, nm⟩ := by
  obtain ⟨hne, hall, hlen⟩ := h
  simp only [toHashAndMask]
  rw [if_neg (by omega : ¬ 64 < t.length)]
  rw [if_neg (by simp [hall, hne])]

theorem wf01_not_sep (t : Str) (h : wf01 t) : ∀ c ∈ t, ¬ isSepChar c := by
  intro c hc
  exact binDigit_not_sep c (List.all_eq_true.mp h.2.1 c hc)

theorem ruleLoopGo_excl (ev : Str) (ss : List Str) (xs : List Str) :
    ∀ (rest : List Str) (i : Nat) (ms acc : List hashAndMask),
      (∀ x ∈ xs, wf01 x) →
      ruleLoopGo ev ss (xs.map (fun x => '-' :: x) ++ rest) i ms acc =
        ruleLoopGo ev ss rest i ms
          (acc ++ xs.map (fun x =>
            (⟨binValue x, 2 ^ x.length - 1,
              ("HASH_EXCLUDE".toList) ++ Nat.toDigits 10 i⟩ : hashAndMask))) := by
  induction xs with
  | nil => intro rest i ms acc hx; simp
  | cons x xs' ih =>
    intro rest i ms acc hx
    have hwx := hx x (List.mem_cons_self _ _)
    simp only [List.map_cons, List.cons_append]
    simp only [ruleLoopGo]
    rw [if_neg (by simp : ¬ ('-' :: x : Str).isEmpty = true)]
    rw [if_pos (by rfl : ('-' :: x : Str).headD ' ' = '-')]
    have htail : ('-' :: x : Str).tail = x := rfl
    rw [htail, toHashAndMask_ok x _ hwx]
    show ruleLoopGo ev ss (xs'.map (fun x => '-' :: x) ++ rest) i ms
        (acc ++ [⟨binValue x, 2 ^ x.length - 1,
          ("HASH_EXCLUDE".toList) ++ Nat.toDigits 10 i⟩]) = _
    rw [ih rest i ms _ (fun y hy => hx y (List.mem_cons_of_mem _ hy))]
    rw [List.append_assoc]
    rfl

theorem ruleLoopGo_incl (ev : Str) (ss : List Str) (ts : List Str) :
    ∀ (i : Nat) (ms acc : List hashAndMask), (∀ t ∈ ts, wf01 t) →
      ∃ out : List hashAndMask × List hashAndMask,
        ruleLoopGo ev ss ts i ms acc = .ok out ∧
        out.1.map (fun m => (m.hash, m.mask)) =
          ms.map (fun m => (m.hash, m.mask)) ++ ts.map ruleOf ∧
        out.2 = acc := by
  induction ts with
  | nil => intro i ms acc h; exact ⟨(ms, acc), rfl, by simp, rfl⟩
  | cons t ts' ih =>
    intro i ms acc h
    have hwt := h t (List.mem_cons_self _ _)
    have hne : ¬ t.isEmpty = true := by simp [hwt.1]
    have hhead : ¬ t.headD ' ' = '-' := by
      obtain ⟨hne', hall, _⟩ := hwt
      cases t with
      | nil => exact absurd rfl hne'
      | cons c cs =>
        have hb : isBinDigit c = true :=
          List.all_eq_true.mp hall c (List.mem_cons_self _ _)
        have h01 : c = '0' ∨ c = '1' := by simpa [isBinDigit] using hb
        have hh : (c :: cs : Str).headD ' ' = c := rfl
        rw [hh]
        rcases h01 with rfl | rfl <;> decide
    simp only [ruleLoopGo, if_neg hne, if_neg hhead]
    rw [toHashAndMask_ok t _ hwt]
    show ∃ out : List hashAndMask × List hashAndMask,
      ruleLoopGo ev ss ts' (i + 1) (ms ++ [⟨binValue t, 2 ^ t.length - 1,
        if i = 0 then ev else ev ++ Nat.toDigits 10 (i - 1)⟩]) acc = .ok out ∧
      out.1.map (fun m => (m.hash, m.mask)) =
        ms.map (fun m => (m.hash, m.mask)) ++ (t :: ts').map ruleOf ∧
      out.2 = acc
    obtain ⟨out, ho, h1, h2⟩ :=
      ih (i + 1) (ms ++ [⟨binValue t, 2 ^ t.length - 1,
        if i = 0 then ev else ev ++ Nat.toDigits 10 (i - 1)⟩]) acc
        (fun y hy => h y (List.mem_cons_of_mem _ hy))
    refine ⟨out, ho, ?_, h2⟩
    rw [h1]
    simp [ruleOf]

/-- Claim C8 (amended): for a search state with a nonempty binary
suffix (≤ 64 bits), nonempty binary confirmed hashes, empty hash
prefix, and nonempty binary exclusions, decoding the value produced by
`newStyleEnvString` with `NewHashDebug` reproduces the rule set: the
inclusion rules are exactly the suffix followed by the hashes in order,
the exclusion rules exactly the exclusions, and neither `yes` nor `no`
is set.  (The original claim fails for the empty suffix, see the
counterexample.) -/
theorem newStyleEnv_roundTrip (pfx ev : Str) (suffix : Str)
    (hs xs : List Str) (hsfx : wf01 suffix) (hhs : ∀ h ∈ hs, wf01 h)
    (hxs : ∀ x ∈ xs, wf01 x) :
    ∃ hd : HashDebug,
      NewHashDebug ev
          (afterLastEq (newStyleEnvString pfx ev [] xs true suffix hs)) =
        .ok (some hd) ∧
      hd.matchRules.map (fun m => (m.hash, m.mask)) =
        (suffix :: hs).map ruleOf ∧
      hd.excludes.map (fun m => (m.hash, m.mask)) = xs.map ruleOf ∧
      hd.yes = false ∧ hd.no = false := by
  have hVchars : ∀ c ∈ ((xs.map (fun x => '-' :: (x ++ ['/']))).flatten ++
      (suffix ++ (hs.map (fun h => '/' :: h)).flatten)),
      c = '-' ∨ c = '/' ∨ isBinDigit c = true := by
    intro c hc
    rcases List.mem_append.mp hc with hc1 | hc2
    · rcases List.mem_flatten.mp hc1 with ⟨l, hl, hcl⟩
      rcases List.mem_map.mp hl with ⟨x, hx, rfl⟩
      rcases List.mem_cons.mp hcl with rfl | hcx
      · exact Or.inl rfl
      · rcases List.mem_append.mp hcx with hcx1 | hcx2
        · exact Or.inr (Or.inr (List.all_eq_true.mp (hxs x hx).2.1 c hcx1))
        · simp only [List.mem_singleton] at hcx2
          exact Or.inr (Or.inl hcx2)
    · rcases List.mem_append.mp hc2 with hc3 | hc4
      · exact Or.inr (Or.inr (List.all_eq_true.mp hsfx.2.1 c hc3))
      · rcases List.mem_flatten.mp hc4 with ⟨l, hl, hcl⟩
        rcases List.mem_map.mp hl with ⟨x, hx, rfl⟩
        rcases List.mem_cons.mp hcl with rfl | hcx
        · exact Or.inr (Or.inl rfl)
        · exact Or.inr (Or.inr (List.all_eq_true.mp (hhs x hx).2.1 c hcx))
  have hneq : '=' ∉ ((xs.map (fun x => '-' :: (x ++ ['/']))).flatten ++
      (suffix ++ (hs.map (fun h => '/' :: h)).flatten)) := by
    intro hc
    rcases hVchars '=' hc with h | h | h <;> exact absurd h (by decide)
  have henc : newStyleEnvString pfx ev [] xs true suffix hs =
      (pfx ++ ev) ++ '=' :: ((xs.map (fun x => '-' :: (x ++ ['/']))).flatten ++
        (suffix ++ (hs.map (fun h => '/' :: h)).flatten)) := by
    simp [newStyleEnvString, List.append_assoc]
  rw [henc, afterLastEq_append _ _ hneq]
  have htoks : tokGo ((xs.map (fun x => '-' :: (x ++ ['/']))).flatten ++
      (suffix ++ (hs.map (fun h => '/' :: h)).flatten)) [] =
      xs.map (fun x => '-' :: x) ++ (suffix :: hs) := by
    rw [tokGo_exclPart xs _ (fun x hx => ⟨(hxs x hx).1, wf01_not_sep x (hxs x hx)⟩)]
    rw [tokGo_append_nonsep suffix (wf01_not_sep suffix hsfx) _ []]
    simp only [List.nil_append]
    rw [tokGo_hashesPart hs
      (fun h hh => ⟨(hhs h hh).1, wf01_not_sep h (hhs h hh)⟩) suffix hsfx.1]
  obtain ⟨c, cs, hVc⟩ : ∃ c cs,
      ((xs.map (fun x => '-' :: (x ++ ['/']))).flatten ++
        (suffix ++ (hs.map (fun h => '/' :: h)).flatten)) = c :: cs := by
    cases hE : (xs.map (fun x => '-' :: (x ++ ['/']))).flatten with
    | nil =>
      cases hS : suffix with
      | nil => exact absurd hS hsfx.1
      | cons a as => exact ⟨a, as ++ (hs.map (fun h => '/' :: h)).flatten,
          by simp [hE, hS]⟩
    | cons a as => exact ⟨a, as ++ (suffix ++ (hs.map (fun h => '/' :: h)).flatten),
        by simp⟩
  have hc := hVchars c (by rw [hVc]; exact List.mem_cons_self c cs)
  have hcy : ¬ (c = 'y' ∨ c = 'Y') := by
    rcases hc with rfl | rfl | hb
    · decide
    · decide
    · have h01 : c = '0' ∨ c = '1' := by simpa [isBinDigit] using hb
      rcases h01 with rfl | rfl <;> decide
  have hcn : ¬ (c = 'n' ∨ c = 'N') := by
    rcases hc with rfl | rfl | hb
    · decide
    · decide
    · have h01 : c = '0' ∨ c = '1' := by simpa [isBinDigit] using hb
      rcases h01 with rfl | rfl <;> decide
  rw [hVc]
  simp only [NewHashDebug, if_neg hcy, if_neg hcn]
  rw [← hVc, htoks]
  rw [ruleLoopGo_excl ev _ xs (suffix :: hs) 0 [] [] hxs]
  obtain ⟨out, ho, h1, h2⟩ := ruleLoopGo_incl ev
      (xs.map (fun x => '-' :: x) ++ (suffix :: hs)) (suffix :: hs) 0 []
      ([] ++ xs.map (fun x =>
        (⟨binValue x, 2 ^ x.length - 1,
          ("HASH_EXCLUDE".toList) ++ Nat.toDigits 10 0⟩ : hashAndMask)))
      (fun t ht => by
        rcases List.mem_cons.mp ht with rfl | h'
        · exact hsfx
        · exact hhs t h')
  obtain ⟨ms1, xs1⟩ := out
  rw [ho]
  refine ⟨⟨ev, ms1, xs1, false, false⟩, rfl, ?_, ?_, rfl, rfl⟩
  · simpa using h1
  · have h2' : xs1 = [] ++ xs.map (fun x =>
        (⟨binValue x, 2 ^ x.length - 1,
          ("HASH_EXCLUDE".toList) ++ Nat.toDigits 10 0⟩ : hashAndMask)) := h2
    rw [h2']
    simp [ruleOf]

/-- Counterexample for C8 as stated: the initial search state (empty
suffix, no hashes, no exclusions) encodes to an empty value, which
`NewHashDebug` decodes to `nil` — no rule set with the empty-suffix
inclusion rule is reproduced. -/
theorem newStyleEnv_roundTrip_counterexample :
    NewHashDebug ("gossahash".toList)
        (afterLastEq (newStyleEnvString ("GOCOMPILEDEBUG=".toList)
          ("gossahash".toList) [] [] true [] [])) = .ok none ∧
    ¬ ∃ hd : HashDebug,
        NewHashDebug ("gossahash".toList)
            (afterLastEq (newStyleEnvString ("GOCOMPILEDEBUG=".toList)
              ("gossahash".toList) [] [] true [] [])) = .ok (some hd) := by
  refine ⟨rfl, ?_⟩
  rintro ⟨hd, h⟩
  have h0 : NewHashDebug ("gossahash".toList)
      (afterLastEq (newStyleEnvString ("GOCOMPILEDEBUG=".toList)
        ("gossahash".toList) [] [] true [] [])) = .ok none := rfl
  rw [h0] at h
  exact Option.noConfusion (Except.ok.inj h)

/-- Witness for C8 (amended), at the state with suffix `01`, hashes
`[111]`, exclusions `[101, 0110]`. -/
theorem newStyleEnv_roundTrip_witness :
    ∃ hd : HashDebug,
      NewHashDebug ("gossahash".toList)
          (afterLastEq (newStyleEnvString ("GOCOMPILEDEBUG=".toList)
            ("gossahash".toList) [] [("101".toList), ("0110".toList)] true
            ("01".toList) [("111".toList)])) = .ok (some hd) ∧
      hd.matchRules.map (fun m => (m.hash, m.mask)) =
        (("01".toList) :: [("111".toList)]).map ruleOf ∧
      hd.excludes.map (fun m => (m.hash, m.mask)) =
        [("101".toList), ("0110".toList)].map ruleOf ∧
      hd.yes = false ∧ hd.no = false :=
  newStyleEnv_roundTrip ("GOCOMPILEDEBUG=".toList) ("gossahash".toList)
    ("01".toList) [("111".toList)] [("101".toList), ("0110".toList)]
    (by decide) (by decide) (by decide)

/-! ### C5: the both-trials-passed branch of the search loop -/

/-- Counterexample for C5 as stated: with the branch coin firing
(`0 == 8192&rand.Int()` true inside the both-passed case), Trial A ran
with suffix `0` and Trial B with suffix `1`, both return PASSED, yet
the engine appends `0` — Trial A's suffix — to `hashes` and continues
with `confirmed_suffix = 1`, the opposite of the claim's "appends b+x
and continues with a+x". -/
theorem searchStep_bothPassed_counterexample :
    (searchStep (fun _ _ _ _ => PASSED) (fun k => k == 1) (fun _ => 0) []
        ⟨[], [], 0⟩ [] [] 0 0 0).1 =
      .next ⟨['1'], [['0']], 0⟩ ['1'] [] ∧
    ¬ ([(['0'] : Str)] = [(['1'] : Str)]) :=
  ⟨by decide, by decide⟩

/-- Claim C5 (amended): whenever Trial A (suffix `a+x`) and Trial B
(suffix `b+x`) both return PASSED, the engine appends one of the two
trial suffixes to `hashes` as a still-multi entry (at the end, with
`next_singleton_hash_index` unchanged) and continues with the other
one; which is which is decided by a fresh coin flip, and when that
flip does not fire the appended entry is `b+x` and the search continues
with `a+x` exactly as the original claim states. -/
theorem searchStep_bothPassed (trial : Nat → Str → List Str → List Str → Nat)
    (coin : Nat → Bool) (intn : Nat → Nat) (exs : List Str) (st : SState)
    (confirmed restart : Str) (tIdx cIdx iIdx : Nat)
    (h1 : trial tIdx (armA coin restart cIdx ++ confirmed) st.hashes exs = PASSED)
    (h2 : trial (tIdx + 1) (armB coin restart cIdx ++ confirmed) st.hashes exs = PASSED) :
    ∃ (st' : SState) (conf' e : Str),
      (searchStep trial coin intn exs st confirmed restart tIdx cIdx iIdx).1 =
        .next st' conf' (restartAfter coin restart cIdx) ∧
      st'.nsi = st.nsi ∧ st'.hashes = st.hashes ++ [e] ∧
      ((e = armB coin restart cIdx ++ confirmed ∧
        conf' = armA coin restart cIdx ++ confirmed) ∨
       (e = armA coin restart cIdx ++ confirmed ∧
        conf' = armB coin restart cIdx ++ confirmed)) ∧
      (coin (cIdxAfter restart cIdx) = false →
        e = armB coin restart cIdx ++ confirmed ∧
        conf' = armA coin restart cIdx ++ confirmed) := by
  cases hc2 : coin (cIdxAfter restart cIdx) with
  | false =>
    refine ⟨⟨armB coin restart cIdx ++ confirmed,
        st.hashes ++ [armB coin restart cIdx ++ confirmed], st.nsi⟩,
      armA coin restart cIdx ++ confirmed,
      armB coin restart cIdx ++ confirmed, ?_, rfl, rfl,
      Or.inl ⟨rfl, rfl⟩, fun _ => ⟨rfl, rfl⟩⟩
    simp [searchStep, h1, h2, hc2, FAILED, DONE, PASSED, PASSED0, DONE0]
  | true =>
    refine ⟨⟨armB coin restart cIdx ++ confirmed,
        st.hashes ++ [armA coin restart cIdx ++ confirmed], st.nsi⟩,
      armB coin restart cIdx ++ confirmed,
      armA coin restart cIdx ++ confirmed, ?_, rfl, rfl,
      Or.inr ⟨rfl, rfl⟩, fun hf => by simp [hc2] at hf⟩
    simp [searchStep, h1, h2, hc2, FAILED, DONE, PASSED, PASSED0, DONE0]

/-- Witness for C5 (amended): a concrete both-passed iteration with
the fresh coin flip not firing appends `b+x = 1` and continues with
`a+x = 0`. -/
theorem searchStep_bothPassed_witness :
    trialFlaky 0 (armA (fun _ => false) [] 0 ++ []) ([] : List Str).reverse [] = PASSED ∧
    ∃ (st' : SState) (conf' e : Str),
      (searchStep (fun _ _ _ _ => PASSED) (fun _ => false) (fun _ => 0) []
          ⟨[], [], 0⟩ [] [] 0 0 0).1 =
        .next st' conf' (restartAfter (fun _ => false) [] 0) ∧
      st'.nsi = (⟨[], [], 0⟩ : SState).nsi ∧
      st'.hashes = (⟨[], [], 0⟩ : SState).hashes ++ [e] ∧
      ((e = armB (fun _ => false) [] 0 ++ [] ∧
        conf' = armA (fun _ => false) [] 0 ++ []) ∨
       (e = armA (fun _ => false) [] 0 ++ [] ∧
        conf' = armB (fun _ => false) [] 0 ++ [])) ∧
      ((fun _ => false : Nat → Bool) (cIdxAfter [] 0) = false →
        e = armB (fun _ => false) [] 0 ++ [] ∧
        conf' = armA (fun _ => false) [] 0 ++ []) := by
  refine ⟨by decide, ?_⟩
  exact searchStep_bothPassed (fun _ _ _ _ => PASSED) (fun _ => false)
    (fun _ => 0) [] ⟨[], [], 0⟩ [] [] 0 0 0 (by decide) (by decide)

/-! ### C6: the length bound of the search -/

theorem armA_length (coin : Nat → Bool) (restart : Str) (cIdx : Nat) :
    (armA coin restart cIdx).length = 1 := by
  unfold armA
  split <;> rfl

theorem armB_length (coin : Nat → Bool) (restart : Str) (cIdx : Nat) :
    (armB coin restart cIdx).length = 1 := by
  unfold armB
  split <;> rfl

theorem searchStep_trace (trial : Nat → Str → List Str → List Str → Nat)
    (coin : Nat → Bool) (intn : Nat → Nat) (exs : List Str) (st : SState)
    (confirmed restart : Str) (tIdx cIdx iIdx : Nat) :
    ∀ p ∈ (searchStep trial coin intn exs st confirmed restart tIdx cIdx iIdx).2.1,
      p.1 = confirmed ∧ p.2.length = confirmed.length + 1 := by
  have hmem : ∀ p ∈ (searchStep trial coin intn exs st confirmed restart tIdx cIdx iIdx).2.1,
      p = (confirmed, armA coin restart cIdx ++ confirmed) ∨
      p = (confirmed, armB coin restart cIdx ++ confirmed) := by
    intro p hp
    simp only [searchStep] at hp
    split at hp
    · simp at hp; exact Or.inl hp
    · split at hp
      · split at hp
        · simp at hp; exact Or.inl hp
        · split at hp
          · simp at hp; exact Or.inl hp
          · simp at hp; exact Or.inl hp
      · split at hp
        · simp at hp
          rcases hp with hp | hp
          · exact Or.inl hp
          · exact Or.inr hp
        · split at hp
          · split at hp
            · simp at hp
              rcases hp with hp | hp
              · exact Or.inl hp
              · exact Or.inr hp
            · split at hp
              · simp at hp
                rcases hp with hp | hp
                · exact Or.inl hp
                · exact Or.inr hp
              · simp at hp
                rcases hp with hp | hp
                · exact Or.inl hp
                · exact Or.inr hp
          · split at hp
            · simp at hp
              rcases hp with hp | hp
              · exact Or.inl hp
              · exact Or.inr hp
            · split at hp
              · split at hp
                · simp at hp
                  rcases hp with hp | hp
                  · exact Or.inl hp
                  · exact Or.inr hp
                · split at hp
                  · simp at hp
                    rcases hp with hp | hp
                    · exact Or.inl hp
                    · exact Or.inr hp
                  · simp at hp
                    rcases hp with hp | hp
                    · exact Or.inl hp
                    · exact Or.inr hp
              · simp at hp
                rcases hp with hp | hp
                · exact Or.inl hp
                · exact Or.inr hp
  intro p hp
  rcases hmem p hp with rfl | rfl
  · exact ⟨rfl, by rw [List.length_append, armA_length]; omega⟩
  · exact ⟨rfl, by rw [List.length_append, armB_length]; omega⟩

/-- Claim C6: no tried or confirmed suffix grows beyond `hashLimit`
(30) bits: the loop runs only while the confirmed suffix is shorter
than `hashLimit` — when it is not, the search returns failure with no
further trials — and every tried suffix is exactly one bit longer than
the confirmed suffix it extends (hence of length at most
`hashLimit`). -/
theorem search_length_bound (trial : Nat → Str → List Str → List Str → Nat)
    (coin : Nat → Bool) (intn : Nat → Nat) (exs : List Str) :
    ∀ (fuel : Nat) (st : SState) (confirmed restart : Str) (t c i : Nat),
      (hashLimit ≤ confirmed.length →
        searchGo trial coin intn exs fuel st confirmed restart t c i =
          ⟨.done false, st, [], t, c, i⟩) ∧
      ∀ p ∈ (searchGo trial coin intn exs fuel st confirmed restart t c i).trace,
        p.1.length < hashLimit ∧ p.2.length = p.1.length + 1 := by
  intro fuel
  induction fuel with
  | zero =>
    intro st confirmed restart t c i
    constructor
    · intro h
      simp [searchGo, h]
    · intro p hp
      by_cases h : hashLimit ≤ confirmed.length <;> simp [searchGo, h] at hp
  | succ fuel' ih =>
    intro st confirmed restart t c i
    constructor
    · intro h
      simp [searchGo, h]
    · intro p hp
      by_cases h : hashLimit ≤ confirmed.length
      · simp [searchGo, h] at hp
      · simp only [searchGo, if_neg h] at hp
        rcases hstep : searchStep trial coin intn exs st confirmed restart t c i
          with ⟨act, tr, t', c', i'⟩
        rw [hstep] at hp
        have htr : ∀ q ∈ tr, q.1 = confirmed ∧ q.2.length = confirmed.length + 1 := by
          intro q hq
          exact searchStep_trace trial coin intn exs st confirmed restart t c i q
            (by rw [hstep]; exact hq)
        cases act with
        | ret b st' =>
          simp at hp
          have h2 := htr p hp
          exact ⟨by rw [h2.1]; omega, by rw [h2.1]; exact h2.2⟩
        | panicked =>
          simp at hp
          have h2 := htr p hp
          exact ⟨by rw [h2.1]; omega, by rw [h2.1]; exact h2.2⟩
        | next st' conf' rst' =>
          simp at hp
          rcases hp with hp | hp
          · have h2 := htr p hp
            exact ⟨by rw [h2.1]; omega, by rw [h2.1]; exact h2.2⟩
          · exact (ih st' conf' rst' t' c' i').2 p hp

/-- Witness for C6: with a confirmed suffix of exactly `hashLimit`
bits the search returns failure immediately, with no trials. -/
theorem search_length_bound_witness :
    searchGo (fun _ _ _ _ => PASSED) (fun _ => false) (fun _ => 0) [] 5
        ⟨[], [], 0⟩ (List.replicate 30 '0') [] 0 0 0 =
      ⟨.done false, ⟨[], [], 0⟩, [], 0, 0, 0⟩ :=
  (search_length_bound (fun _ _ _ _ => PASSED) (fun _ => false) (fun _ => 0)
    [] 5 ⟨[], [], 0⟩ (List.replicate 30 '0') [] 0 0 0).1 (by decide)

/-! ### C7: what the driver does when the search aborts -/

/-- Counterexample for C7 as stated: a first trial that passes followed
by a zero-trigger pass makes the very first search flaky; the driver
prints FLAKY TEST OR BAD SEARCH and stops — but `main` simply breaks
out of its loop and returns, so the process exits with code 0, not a
nonzero code as the claim requires. -/
theorem driver_flaky_counterexample :
    driverGo trialFlaky (fun _ => false) (fun _ => 0) 5 [] [] false 3 1 [] 0 0 0 =
      some ⟨[.flaky], 0⟩ ∧
    ¬ ∃ out : DriverOut,
        driverGo trialFlaky (fun _ => false) (fun _ => 0) 5 [] [] false 3 1 [] 0 0 0 =
          some out ∧ out.exitCode ≠ 0 := by
  have h0 : driverGo trialFlaky (fun _ => false) (fun _ => 0) 5 [] [] false 3 1 [] 0 0 0 =
      some ⟨[.flaky], 0⟩ := by decide
  refine ⟨h0, ?_⟩
  rintro ⟨out, h1, h2⟩
  rw [h0] at h1
  cases h1
  exact h2 rfl

/-- Claim C7 (amended): whenever the search aborts without convergence
the driver reports FLAKY TEST OR BAD SEARCH and stops searching, and
the process exits with code 0 — the same exit code as on convergence,
since `main` contains no `os.Exit` on these paths. -/
theorem driver_flaky_and_exit (trial : Nat → Str → List Str → List Str → Nat)
    (coin : Nat → Bool) (intn : Nat → Nat) (sFuel : Nat)
    (initialSuffix restartSuffix : Str) (batchExclude : Bool) :
    (∀ (n : Nat) (multiple : Int) (excludes : List Str) (t c i : Nat)
        (out : DriverOut),
        driverGo trial coin intn sFuel initialSuffix restartSuffix batchExclude
          n multiple excludes t c i = some out → out.exitCode = 0) ∧
    (∀ (n : Nat) (multiple : Int) (excludes : List Str) (t c i : Nat),
        (searchGo trial coin intn excludes sFuel ⟨[], [], 0⟩ initialSuffix
          restartSuffix t c i).res = .done false →
        driverGo trial coin intn sFuel initialSuffix restartSuffix batchExclude
          (n + 1) multiple excludes t c i = some ⟨[.flaky], 0⟩) := by
  constructor
  · intro n
    induction n with
    | zero =>
      intro multiple excludes t c i out h
      cases h
    | succ n ih =>
      intro multiple excludes t c i out h
      simp only [driverGo] at h
      rcases hS : searchGo trial coin intn excludes sFuel ⟨[], [], 0⟩
          initialSuffix restartSuffix t c i with ⟨res, st', tr, t', c', i'⟩
      rw [hS] at h
      cases res with
      | fuelOut => cases h
      | panicked => cases h
      | done b =>
        cases b with
        | false => cases h; rfl
        | true =>
          simp only at h
          rcases hF : filterGo trial [] st' t' with _ | ⟨stF, tF⟩
          · rw [hF] at h; cases h
          · rw [hF] at h
            simp only at h
            split at h <;> (try split at h) <;> (try split at h) <;>
              first
                | (cases h; rfl)
                | exact ih _ _ _ _ _ out h
  · intro n multiple excludes t c i hres
    simp only [driverGo]
    rcases hS : searchGo trial coin intn excludes sFuel ⟨[], [], 0⟩
        initialSuffix restartSuffix t c i with ⟨res, st', tr, t', c', i'⟩
    rw [hS] at hres
    simp only at hres
    subst hres
    rfl

/-- Witness for C7 (amended), on the concrete flaky run. -/
theorem driver_flaky_and_exit_witness :
    (searchGo trialFlaky (fun _ => false) (fun _ => 0) [] 5 ⟨[], [], 0⟩
        [] [] 0 0 0).res = .done false ∧
    driverGo trialFlaky (fun _ => false) (fun _ => 0) 5 [] [] false 1 3 [] 0 0 0 =
      some ⟨[.flaky], 0⟩ :=
  ⟨by decide,
   (driver_flaky_and_exit trialFlaky (fun _ => false) (fun _ => 0) 5 [] []
     false).2 0 3 [] 0 0 0 (by decide)⟩

/-! ### C9: the filter pass and idempotence -/

/-- Invariant of the filter loop: every rule of the final state comes
from the initial state or the initial `temporarily_removed`, no rule of
the final state is the empty string (provided none was and a nonempty
`temporarily_removed` backs a nonempty hash list), and the final
`temporarily_removed` likewise comes from the initial rules unless it
is empty. -/
theorem filterLoop_subset (trial : Nat → Str → List Str → List Str → Nat)
    (exs : List Str) (k : Nat) :
    ∀ (st : SState) (temp : Str) (tIdx : Nat) (st1 : SState) (temp1 : Str)
      (t1 : Nat),
      (∀ x ∈ st.suffix :: st.hashes, x ≠ ([] : Str)) →
      (temp = [] → st.hashes = []) →
      filterLoop trial exs k st temp tIdx = .ok st1 temp1 t1 →
      (∀ x ∈ st1.suffix :: st1.hashes,
        x ∈ st.suffix :: (st.hashes ++ [temp]) ∧ x ≠ ([] : Str)) ∧
      (temp1 ∈ st.suffix :: (st.hashes ++ [temp]) ∨ temp1 = []) := by
  induction k with
  | zero =>
    intro st temp tIdx st1 temp1 t1 hne htemp h
    simp only [filterLoop] at h
    cases h
    refine ⟨fun x hx => ⟨?_, hne x hx⟩, Or.inl ?_⟩
    · rcases List.mem_cons.1 hx with rfl | hx2
      · exact List.mem_cons_self _ _
      · exact List.mem_cons_of_mem _ (List.mem_append_left _ hx2)
    · exact List.mem_cons_of_mem _
        (List.mem_append_right _ (List.mem_singleton_self _))
  | succ k ih =>
    intro st temp tIdx st1 temp1 t1 hne htemp h
    simp only [filterLoop] at h
    by_cases hlen : st.hashes.length = 0
    · rw [if_pos hlen] at h
      cases h
      refine ⟨fun x hx => ⟨?_, hne x hx⟩, Or.inl ?_⟩
      · rcases List.mem_cons.1 hx with rfl | hx2
        · exact List.mem_cons_self _ _
        · exact List.mem_cons_of_mem _ (List.mem_append_left _ hx2)
      · exact List.mem_cons_of_mem _
          (List.mem_append_right _ (List.mem_singleton_self _))
    · rw [if_neg hlen] at h
      have htne : temp ≠ ([] : Str) := fun he => hlen (by rw [htemp he]; rfl)
      generalize hstM :
        (if k = 0 then { st with suffix := temp }
         else if k - 1 < st.hashes.length then
           { st with hashes := st.hashes.set (k - 1) temp }
         else st) = stM at h
      generalize htM :
        (if k = 0 then st.suffix
         else if k - 1 < st.hashes.length then st.hashes.getD (k - 1) []
         else temp) = tM at h
      have hsub : ∀ x ∈ stM.suffix :: stM.hashes,
          x ∈ st.suffix :: (st.hashes ++ [temp]) ∧ x ≠ ([] : Str) := by
        intro x hx
        rw [← hstM] at hx
        by_cases hk : k = 0
        · rw [if_pos hk] at hx
          rcases List.mem_cons.1 hx with rfl | hx2
          · exact ⟨List.mem_cons_of_mem _
              (List.mem_append_right _ (List.mem_singleton_self _)), htne⟩
          · exact ⟨List.mem_cons_of_mem _ (List.mem_append_left _ hx2),
              hne x (List.mem_cons_of_mem _ hx2)⟩
        · rw [if_neg hk] at hx
          by_cases hk1 : k - 1 < st.hashes.length
          · rw [if_pos hk1] at hx
            rcases List.mem_cons.1 hx with rfl | hx2
            · exact ⟨List.mem_cons_self _ _, hne _ (List.mem_cons_self _ _)⟩
            · rcases List.mem_or_eq_of_mem_set hx2 with hmem | rfl
              · exact ⟨List.mem_cons_of_mem _ (List.mem_append_left _ hmem),
                  hne x (List.mem_cons_of_mem _ hmem)⟩
              · exact ⟨List.mem_cons_of_mem _
                  (List.mem_append_right _ (List.mem_singleton_self _)), htne⟩
          · rw [if_neg hk1] at hx
            rcases List.mem_cons.1 hx with rfl | hx2
            · exact ⟨List.mem_cons_self _ _, hne _ (List.mem_cons_self _ _)⟩
            · exact ⟨List.mem_cons_of_mem _ (List.mem_append_left _ hx2),
                hne x (List.mem_cons_of_mem _ hx2)⟩
      have htM1 : tM ∈ st.suffix :: (st.hashes ++ [temp]) ∧ tM ≠ ([] : Str) := by
        rw [← htM]
        by_cases hk : k = 0
        · rw [if_pos hk]
          exact ⟨List.mem_cons_self _ _, hne _ (List.mem_cons_self _ _)⟩
        · rw [if_neg hk]
          by_cases hk1 : k - 1 < st.hashes.length
          · rw [if_pos hk1]
            have hm : st.hashes.getD (k - 1) [] ∈ st.hashes := by
              rw [List.getD_eq_getElem st.hashes [] hk1]
              exact List.getElem_mem hk1
            exact ⟨List.mem_cons_of_mem _ (List.mem_append_left _ hm),
              hne _ (List.mem_cons_of_mem _ hm)⟩
          · rw [if_neg hk1]
            exact ⟨List.mem_cons_of_mem _
              (List.mem_append_right _ (List.mem_singleton_self _)), htne⟩
      by_cases hr0 : trial tIdx stM.suffix stM.hashes exs = DONE0
      · rw [if_pos hr0] at h
        by_cases hlen1 : 1 < stM.hashes.length
        · rw [if_pos hlen1] at h
          have hlpos : stM.hashes.length - 1 < stM.hashes.length := by omega
          have hlmem : stM.hashes.getD (stM.hashes.length - 1) [] ∈ stM.hashes := by
            rw [List.getD_eq_getElem stM.hashes [] hlpos]
            exact List.getElem_mem hlpos
          have hlfacts := hsub _ (List.mem_cons_of_mem _ hlmem)
          have hne2 : ∀ x ∈ (stM.hashes.getD (stM.hashes.length - 1) []) ::
              ([] : List Str), x ≠ ([] : Str) := by
            intro x hx
            rcases List.mem_cons.1 hx with rfl | hx2
            · exact hlfacts.2
            · exact absurd hx2 (List.not_mem_nil x)
          have htemp2 : ([] : Str) = [] → ([] : List Str) = [] := fun _ => rfl
          obtain ⟨ihA, ihB⟩ := ih _ _ _ _ _ _ hne2 htemp2 h
          refine ⟨fun x hx => ?_, ?_⟩
          · obtain ⟨hx1, hx2⟩ := ihA x hx
            refine ⟨?_, hx2⟩
            rcases List.mem_cons.1 hx1 with rfl | hx3
            · exact hlfacts.1
            · have : x = ([] : Str) := by simpa using hx3
              exact absurd this hx2
          · rcases ihB with hmem | he
            · rcases List.mem_cons.1 hmem with rfl | hmem2
              · exact Or.inl hlfacts.1
              · have : temp1 = ([] : Str) := by simpa using hmem2
                exact Or.inr this
            · exact Or.inr he
        · rw [if_neg hlen1] at h
          cases h
      · rw [if_neg hr0] at h
        by_cases hr1 : trial tIdx stM.suffix stM.hashes exs = DONE ∨
            trial tIdx stM.suffix stM.hashes exs = FAILED
        · rw [if_pos hr1] at h
          split at h
          · cases h
          · rename_i hl hgl
            have hlmem : hl ∈ stM.hashes := List.mem_of_mem_getLast? hgl
            have hlne : hl ≠ ([] : Str) := (hsub _ (List.mem_cons_of_mem _ hlmem)).2
            have hne2 : ∀ x ∈ stM.suffix :: stM.hashes.dropLast,
                x ≠ ([] : Str) := by
              intro x hx
              rcases List.mem_cons.1 hx with rfl | hx2
              · exact (hsub _ (List.mem_cons_self _ _)).2
              · exact (hsub _ (List.mem_cons_of_mem _
                  (List.mem_of_mem_dropLast hx2))).2
            have htemp2 : hl = ([] : Str) → stM.hashes.dropLast = [] :=
              fun he => absurd he hlne
            obtain ⟨ihA, ihB⟩ := ih _ _ _ _ _ _ hne2 htemp2 h
            have hdom : ∀ y ∈ stM.suffix :: (stM.hashes.dropLast ++ [hl]),
                y ∈ st.suffix :: (st.hashes ++ [temp]) := by
              intro y hy
              rcases List.mem_cons.1 hy with rfl | hy2
              · exact (hsub _ (List.mem_cons_self _ _)).1
              · rcases List.mem_append.1 hy2 with hy3 | hy3
                · exact (hsub _ (List.mem_cons_of_mem _
                    (List.mem_of_mem_dropLast hy3))).1
                · rw [List.mem_singleton.1 hy3]
                  exact (hsub _ (List.mem_cons_of_mem _ hlmem)).1
            refine ⟨fun x hx => ?_, ?_⟩
            · obtain ⟨hx1, hx2⟩ := ihA x hx
              exact ⟨hdom x hx1, hx2⟩
            · rcases ihB with hmem | he
              · exact Or.inl (hdom _ hmem)
              · exact Or.inr he
        · rw [if_neg hr1] at h
          have hne2 : ∀ x ∈ stM.suffix :: stM.hashes, x ≠ ([] : Str) :=
            fun x hx => (hsub x hx).2
          have htemp2 : tM = ([] : Str) → stM.hashes = [] :=
            fun he => absurd he htM1.2
          obtain ⟨ihA, ihB⟩ := ih _ _ _ _ _ _ hne2 htemp2 h
          have hdom : ∀ y ∈ stM.suffix :: (stM.hashes ++ [tM]),
              y ∈ st.suffix :: (st.hashes ++ [temp]) := by
            intro y hy
            rcases List.mem_cons.1 hy with rfl | hy2
            · exact (hsub _ (List.mem_cons_self _ _)).1
            · rcases List.mem_append.1 hy2 with hy3 | hy3
              · exact (hsub _ (List.mem_cons_of_mem _ hy3)).1
              · rw [List.mem_singleton.1 hy3]
                exact htM1.1
          exact ⟨fun x hx => ⟨hdom x (ihA x hx).1, (ihA x hx).2⟩,
            ihB.elim (fun hm => Or.inl (hdom _ hm)) Or.inr⟩

/-- A filter pass only keeps rules that were already present: the rule
set of the output state is contained in the rule set of the input
state, and stays free of empty rules. -/
theorem filterGo_subset (trial : Nat → Str → List Str → List Str → Nat)
    (exs : List Str) (st : SState) (tIdx : Nat) (st2 : SState) (t2 : Nat)
    (hne : ∀ x ∈ st.suffix :: st.hashes, x ≠ ([] : Str))
    (h : filterGo trial exs st tIdx = .ok st2 t2) :
    ∀ x ∈ st2.suffix :: st2.hashes,
      x ∈ st.suffix :: st.hashes ∧ x ≠ ([] : Str) := by
  simp only [filterGo] at h
  by_cases hlen : st.hashes.length = 0
  · rw [if_pos hlen] at h
    cases h
    exact fun x hx => ⟨hx, hne x hx⟩
  · rw [if_neg hlen] at h
    split at h
    · cases h
    · rename_i temp0 hgl
      have htmem : temp0 ∈ st.hashes := List.mem_of_mem_getLast? hgl
      split at h
      · cases h
      · rename_i stm tempm tm hfl
        have hne2 : ∀ x ∈ st.suffix :: st.hashes.dropLast, x ≠ ([] : Str) := by
          intro x hx
          rcases List.mem_cons.1 hx with rfl | hx2
          · exact hne _ (List.mem_cons_self _ _)
          · exact hne x (List.mem_cons_of_mem _ (List.mem_of_mem_dropLast hx2))
        have htemp2 : temp0 = ([] : Str) → st.hashes.dropLast = [] :=
          fun he => absurd he (hne _ (List.mem_cons_of_mem _ htmem))
        obtain ⟨ihA, ihB⟩ := filterLoop_subset trial exs _ _ _ _ _ _ _
          hne2 htemp2 hfl
        have hdom : ∀ y ∈ st.suffix :: (st.hashes.dropLast ++ [temp0]),
            y ∈ st.suffix :: st.hashes := by
          intro y hy
          rcases List.mem_cons.1 hy with rfl | hy2
          · exact List.mem_cons_self _ _
          · rcases List.mem_append.1 hy2 with hy3 | hy3
            · exact List.mem_cons_of_mem _ (List.mem_of_mem_dropLast hy3)
            · rw [List.mem_singleton.1 hy3]
              exact List.mem_cons_of_mem _ htmem
        by_cases he : tempm.isEmpty
        · rw [if_pos he] at h
          cases h
          exact fun x hx => ⟨hdom x (ihA x hx).1, (ihA x hx).2⟩
        · rw [if_neg he] at h
          cases h
          intro x hx
          rcases List.mem_cons.1 hx with rfl | hx2
          · exact ⟨hdom _ (ihA _ (List.mem_cons_self _ _)).1,
              (ihA _ (List.mem_cons_self _ _)).2⟩
          · rcases List.mem_append.1 hx2 with hx3 | hx3
            · have hfacts := ihA x (List.mem_cons_of_mem _ hx3)
              exact ⟨hdom x hfacts.1, hfacts.2⟩
            · rw [List.mem_singleton.1 hx3]
              have hte : tempm ≠ ([] : Str) := by
                intro hh
                rw [hh] at he
                exact he rfl
              rcases ihB with hm | hm
              · exact ⟨hdom _ hm, hte⟩
              · exact absurd hm hte

/-- Claim C9 (amended): under a deterministic trial oracle the filter
pass is not idempotent — a second pass can drop further rules (see the
counterexample) — but it is contracting: each pass keeps only rules
already present, so two passes yield a subset of one pass, which is a
subset of the converged search state's rule set. -/
theorem filter_twice_subset (trial : Nat → Str → List Str → List Str → Nat)
    (exs : List Str) (st st1 st2 : SState) (tIdx t1 t2 : Nat)
    (hne : ∀ x ∈ st.suffix :: st.hashes, x ≠ ([] : Str))
    (h1 : filterGo trial exs st tIdx = .ok st1 t1)
    (h2 : filterGo trial exs st1 t1 = .ok st2 t2) :
    (∀ x ∈ st2.suffix :: st2.hashes, x ∈ st1.suffix :: st1.hashes) ∧
    (∀ x ∈ st1.suffix :: st1.hashes, x ∈ st.suffix :: st.hashes) := by
  have hA := filterGo_subset trial exs st tIdx st1 t1 hne h1
  have hB := filterGo_subset trial exs st1 t1 st2 t2
    (fun x hx => (hA x hx).2) h2
  exact ⟨fun x hx => (hB x hx).1, fun x hx => (hA x hx).1⟩

/-- Counterexample for C9 as stated: with the deterministic oracle
`trialOracle9` the search converges to the rule set {010, 000, 01};
one filter pass yields {000, 01, 010}, but a second pass drops 01,
yielding {000, 010} — the two sets differ, so the filter pass is not
idempotent even for a deterministic trial. -/
theorem filter_idem_counterexample :
    (searchGo trialOracle9 (fun _ => false) (fun _ => 0) [] 10 ⟨[], [], 0⟩
      [] [] 0 0 0).res = .done true ∧
    (searchGo trialOracle9 (fun _ => false) (fun _ => 0) [] 10 ⟨[], [], 0⟩
      [] [] 0 0 0).st =
      ⟨("010".toList), [("000".toList), ("01".toList)], 2⟩ ∧
    (searchGo trialOracle9 (fun _ => false) (fun _ => 0) [] 10 ⟨[], [], 0⟩
      [] [] 0 0 0).tIdx = 7 ∧
    filterGo trialOracle9 []
      ⟨("010".toList), [("000".toList), ("01".toList)], 2⟩ 7 =
      .ok ⟨("000".toList), [("01".toList), ("010".toList)], 2⟩ 11 ∧
    filterGo trialOracle9 []
      ⟨("000".toList), [("01".toList), ("010".toList)], 2⟩ 11 =
      .ok ⟨("000".toList), [("010".toList)], 2⟩ 14 ∧
    ("01".toList) ∈
      (("000".toList) :: [("01".toList), ("010".toList)] : List Str) ∧
    ("01".toList) ∉
      (("000".toList) :: [("010".toList)] : List Str) := by
  decide

/-- Witness for C9 (amended) on the run of the counterexample oracle. -/
theorem filter_twice_subset_witness :
    (∀ x ∈ (("000".toList) :: [("010".toList)] : List Str),
        x ∈ (("000".toList) :: [("01".toList), ("010".toList)] : List Str)) ∧
    (∀ x ∈ (("000".toList) :: [("01".toList), ("010".toList)] : List Str),
        x ∈ (("010".toList) :: [("000".toList), ("01".toList)] : List Str)) :=
  filter_twice_subset trialOracle9 []
    ⟨("010".toList), [("000".toList), ("01".toList)], 2⟩
    ⟨("000".toList), [("01".toList), ("010".toList)], 2⟩
    ⟨("000".toList), [("010".toList)], 2⟩ 7 11 14
    (by decide) (by decide) (by decide)

/-! ### C10: bounds of the list accesses in the filter pass -/

/-- Claim C10 fails: from the reachable converged state
(suffix 010, hashes [000, 01]) a run of filter trials that keep
answering DONE0 drives the loop to a state with exactly one remaining
hash, where the else-branch of the DONE0 case evaluates
`ss.hashes[len(ss.hashes)-2]` with `len(ss.hashes) = 1`, an access at
index -1 that panics — modelled by `FOut.panicked`. -/
theorem filter_done0_out_of_range :
    (searchGo trialC10 (fun _ => false) (fun _ => 0) [] 10 ⟨[], [], 0⟩
      [] [] 0 0 0).res = .done true ∧
    (searchGo trialC10 (fun _ => false) (fun _ => 0) [] 10 ⟨[], [], 0⟩
      [] [] 0 0 0).st =
      ⟨("010".toList), [("000".toList), ("01".toList)], 2⟩ ∧
    (searchGo trialC10 (fun _ => false) (fun _ => 0) [] 10 ⟨[], [], 0⟩
      [] [] 0 0 0).tIdx = 7 ∧
    filterGo trialC10 []
      ⟨("010".toList), [("000".toList), ("01".toList)], 2⟩ 7 = .panicked := by
  decide

end Gossahash
